import Mathlib

/-!
Shallow embedding of the automerge core (TypeScript sources
`src/src-ts/backend/op_set.ts`, `src/src-ts/backend/skip_list.ts` — whose
second half is the backend module — and the frontend op filter), together
with theorems settling the specification claims.

Modelling conventions, used consistently below:
* Immutable.js `Map` values are modelled as association lists whose `set`
  replaces an existing binding in place and appends a fresh one at the end;
  Immutable.js `List` is a Lean `List`; Immutable.js `Set` is a
  duplicate-free Lean `List` in insertion order.
* JS `null`/`undefined` slots are `Option.none`.  A `null` arithmetic
  operand coerces to `0` in JS (`null + 1 === 1`), so count slots holding
  `null` are modelled as `0`.
* JS loops without a structural termination argument (`while (true)`,
  pointer chases) are given explicit fuel; running out of fuel models a
  non-terminating or crashing execution and is reported as `Err.fuel`.
  Out-of-range JS array reads yield `undefined`; they are modelled by the
  `getD` defaults and do not occur on well-formed values.
* Thrown JS exceptions are `Except.error` values tagged by throw site.
-/

namespace Automerge

/-- A primitive JSON value as stored in op `value` slots. -/
inductive JVal where
  | str (s : String)
  | num (n : Int)
  | boolean (b : Bool)
  | jnull
deriving DecidableEq, Repr

/-- Throw sites of the embedded code (JS `Error`/`RangeError`/`TypeError`). -/
inductive Err where
  | duplicateCreate
  | unknownObject
  | duplicateElem
  | missingIndexEntry
  | inconsistentReuse
  | alreadyApplied
  | emptyUndo
  | emptyRedo
  | rangeError
  | typeError
  | fuel
deriving DecidableEq, Repr

instance {ε α : Type} [DecidableEq ε] [DecidableEq α] : DecidableEq (Except ε α) :=
  fun a b =>
  match a, b with
  | .error e1, .error e2 =>
    if h : e1 = e2 then isTrue (by rw [h]) else isFalse (fun hc => h (by cases hc; rfl))
  | .ok a1, .ok a2 =>
    if h : a1 = a2 then isTrue (by rw [h]) else isFalse (fun hc => h (by cases hc; rfl))
  | .error _, .ok _ => isFalse (fun hc => Except.noConfusion hc)
  | .ok _, .error _ => isFalse (fun hc => Except.noConfusion hc)

/-- JS truthiness of a string-or-null slot (`null`, `undefined` and `""` are falsy). -/
def truthy : Option String → Bool
  | none => false
  | some s => s ≠ ""

/-- `l[i] = a`, extending the array with `d` (JS `undefined`) as JS assignment does. -/
def listSet {α : Type} (l : List α) (i : Nat) (a : α) (d : α) : List α :=
  match l, i with
  | [], 0 => [a]
  | [], n + 1 => d :: listSet [] n a d
  | _ :: xs, 0 => a :: xs
  | x :: xs, n + 1 => x :: listSet xs n a d

/-- Replace the binding of `k` in place, or append a fresh binding
(Immutable.js `Map.set`). -/
def assocSet {K A : Type} [DecidableEq K] : List (K × A) → K → A → List (K × A)
  | [], k, a => [(k, a)]
  | (k0, a0) :: rest, k, a =>
    if k0 = k then (k, a) :: rest else (k0, a0) :: assocSet rest k a

/-- Remove the binding of `k` (Immutable.js `Map.remove`). -/
def assocRemove {K A : Type} [DecidableEq K] : List (K × A) → K → List (K × A)
  | [], _ => []
  | (k0, a0) :: rest, k =>
    if k0 = k then rest else (k0, a0) :: assocRemove rest k

/-- Clock lookup with the `getIn(..., 0)` default. -/
def clockGet (c : List (String × Nat)) (a : String) : Nat :=
  (List.lookup a c).getD 0

/-- Immutable.js `Map.equals`: same binding sets, order-independently. -/
def mapEquiv (c1 c2 : List (String × Nat)) : Bool :=
  c1.all (fun p => List.lookup p.1 c2 = some p.2) &&
    c2.all (fun p => List.lookup p.1 c1 = some p.2)

/-- `deps.mergeWith(max, transitive)` (`transitiveDeps` merger). -/
def mergeMax (a b : List (String × Nat)) : List (String × Nat) :=
  b.foldl (fun acc p =>
    match List.lookup p.1 acc with
    | some v0 => assocSet acc p.1 (max v0 p.2)
    | none => acc ++ [p]) a

/-- Insert `x` before the first element it is `le` to (keeps ties in their
original relative order). -/
def insertOrd {α : Type} (le : α → α → Bool) (x : α) : List α → List α
  | [] => [x]
  | y :: ys => if le x y then x :: y :: ys else y :: insertOrd le x ys

/-- A stable ascending sort: Immutable.js `sort`/`sortBy` is specified to
be stable, and every stable sort computes the same list, so a structural
insertion sort models it (and evaluates in the kernel). -/
def stableSort {α : Type} (le : α → α → Bool) : List α → List α
  | [] => []
  | x :: xs => insertOrd le x (stableSort le xs)

/-- Lexicographic strict order on character lists (the JS `<` on strings,
compared unit by unit). -/
def charsLt : List Char → List Char → Bool
  | [], [] => false
  | [], _ :: _ => true
  | _ :: _, [] => false
  | c :: cs, d :: ds => if c < d then true else if d < c then false else charsLt cs ds

/-- JS `a < b` on strings. -/
def strLt (a b : String) : Bool := charsLt a.data b.data

/-- JS `a < b || a === b` on strings (the ≤ induced by the sort
comparator). -/
def strLe (a b : String) : Bool := strLt a b || a == b

/-! ## Skip list (`skip_list.ts`)

`Node` and `SkipList` are the persistent skip list.  The injectable random
source (`randomLevel`) is a stream of levels `rand`; `next()` consumes the
head (an exhausted stream keeps yielding level 1). -/

/-- `class Node` of `skip_list.ts`. -/
structure SLNode (V : Type) where
  key : Option String
  value : Option V
  level : Nat
  prevKey : List (Option String)
  nextKey : List (Option String)
  prevCount : List Nat
  nextCount : List Nat
deriving DecidableEq, Repr

namespace SLNode

/-- `Node.setValue` (the stored key is kept). -/
def setValue {V : Type} (n : SLNode V) (value : Option V) : SLNode V :=
  { n with value := value }

/-- `Node.insertAfter`. -/
def insertAfter {V : Type} (n : SLNode V) (newKey : Option String)
    (newLevel fromLevel distance : Nat) : Except Err (SLNode V) :=
  if newLevel > n.level ∧ n.key ≠ none then .error .rangeError
  else
    let maxLevel := max n.level newLevel
    let upd := ((List.range maxLevel).drop fromLevel).foldl
      (fun (p : List (Option String) × List Nat) level =>
        if level < newLevel then
          (listSet p.1 level newKey none, listSet p.2 level distance 0)
        else
          (p.1, listSet p.2 level (p.2.getD level 0 + 1) 0))
      (n.nextKey, n.nextCount)
    .ok { n with level := maxLevel, nextKey := upd.1, nextCount := upd.2 }

/-- `Node.insertBefore`. -/
def insertBefore {V : Type} (n : SLNode V) (newKey : Option String)
    (newLevel fromLevel distance : Nat) : Except Err (SLNode V) :=
  if newLevel > n.level then .error .rangeError
  else
    let upd := ((List.range n.level).drop fromLevel).foldl
      (fun (p : List (Option String) × List Nat) level =>
        if level < newLevel then
          (listSet p.1 level newKey none, listSet p.2 level distance 0)
        else
          (p.1, listSet p.2 level (p.2.getD level 0 + 1) 0))
      (n.prevKey, n.prevCount)
    .ok { n with prevKey := upd.1, prevCount := upd.2 }

/-- `Node.removeAfter` (the `-= 1` in JS can go negative only on malformed
counts; `Nat` truncation stands in for that). -/
def removeAfter {V : Type} (n : SLNode V) (fromLevel removedLevel : Nat)
    (newKeys : List (Option String)) (distances : List Nat) : SLNode V :=
  let upd := ((List.range n.level).drop fromLevel).foldl
    (fun (p : List (Option String) × List Nat) level =>
      if level < removedLevel then
        (listSet p.1 level (newKeys.getD level none) none,
         listSet p.2 level (distances.getD level 0) 0)
      else
        (p.1, listSet p.2 level (p.2.getD level 0 - 1) 0))
    (n.nextKey, n.nextCount)
  { n with nextKey := upd.1, nextCount := upd.2 }

/-- `Node.removeBefore`. -/
def removeBefore {V : Type} (n : SLNode V) (fromLevel removedLevel : Nat)
    (newKeys : List (Option String)) (distances : List Nat) : SLNode V :=
  let upd := ((List.range n.level).drop fromLevel).foldl
    (fun (p : List (Option String) × List Nat) level =>
      if level < removedLevel then
        (listSet p.1 level (newKeys.getD level none) none,
         listSet p.2 level (distances.getD level 0) 0)
      else
        (p.1, listSet p.2 level (p.2.getD level 0 - 1) 0))
    (n.prevKey, n.prevCount)
  { n with prevKey := upd.1, prevCount := upd.2 }

end SLNode

/-- `class SkipList`.  `rand` is the injected level stream. -/
structure SkipList (V : Type) where
  length : Nat
  nodes : List (Option String × SLNode V)
  rand : List Nat
deriving DecidableEq, Repr

namespace SkipList

/-- `_nodes.get(k)`. -/
def nodesGet {V : Type} (s : SkipList V) (k : Option String) : Option (SLNode V) :=
  (s.nodes.find? (fun p => p.1 = k)).map (·.2)

/-- `_nodes.has(k)`. -/
def nodesHas {V : Type} (s : SkipList V) (k : Option String) : Bool :=
  (s.nodes.find? (fun p => p.1 = k)).isSome

/-- The fresh list built by the constructor: head node only.  The head's
initial `nextCount` is JS `[null]`, which behaves as `0` in arithmetic. -/
def empty (V : Type) (rand : List Nat) : SkipList V :=
  ⟨0, [(none, ⟨none, none, 1, [], [none], [], [0]⟩)], rand⟩

/-- One step of the `predecessors` inner `while` walk at `level`. -/
def predWalk {V : Type} (s : SkipList V) (level : Nat) :
    Option String → Nat → Nat → Except Err (Option String × Nat)
  | _, _, 0 => .error .fuel
  | preKey, count, fuelW + 1 =>
    if truthy preKey = false then .ok (preKey, count)
    else
      match s.nodesGet preKey with
      | none => .error .typeError
      | some node =>
        if node.level > level then .ok (preKey, count)
        else if node.level < level then .error .rangeError
        else predWalk s level (node.prevKey.getD (level - 1) none)
          (count + node.prevCount.getD (level - 1) 0) fuelW

/-- Levels `level, level+1, …` of `predecessors`, `n` further levels. -/
def predsGo {V : Type} (s : SkipList V) (fuelW : Nat) :
    Nat → Option String → Nat → Nat → Except Err (List (Option String) × List Nat)
  | _, k, c, 0 => .ok ([k], [c])
  | level, k, c, n + 1 => do
    let kc ← predWalk s level k c fuelW
    let rest ← predsGo s fuelW (level + 1) kc.1 kc.2 n
    .ok (k :: rest.1, c :: rest.2)

/-- `SkipList.predecessors`. -/
def predecessors {V : Type} (s : SkipList V) (predecessor : Option String)
    (maxLevel : Nat) : Except Err (List (Option String) × List Nat) :=
  predsGo s (s.nodes.length + 1) 1 predecessor 1 (maxLevel - 1)

/-- One step of the `successors` inner `while` walk at `level`. -/
def sucWalk {V : Type} (s : SkipList V) (level : Nat) :
    Option String → Nat → Nat → Except Err (Option String × Nat)
  | _, _, 0 => .error .fuel
  | sucKey, count, fuelW + 1 =>
    if truthy sucKey = false then .ok (sucKey, count)
    else
      match s.nodesGet sucKey with
      | none => .error .typeError
      | some node =>
        if node.level > level then .ok (sucKey, count)
        else if node.level < level then .error .rangeError
        else sucWalk s level (node.nextKey.getD (level - 1) none)
          (count + node.nextCount.getD (level - 1) 0) fuelW

/-- Levels `level, level+1, …` of `successors`, `n` further levels. -/
def sucsGo {V : Type} (s : SkipList V) (fuelW : Nat) :
    Nat → Option String → Nat → Nat → Except Err (List (Option String) × List Nat)
  | _, k, c, 0 => .ok ([k], [c])
  | level, k, c, n + 1 => do
    let kc ← sucWalk s level k c fuelW
    let rest ← sucsGo s fuelW (level + 1) kc.1 kc.2 n
    .ok (k :: rest.1, c :: rest.2)

/-- `SkipList.successors`. -/
def successors {V : Type} (s : SkipList V) (successor : Option String)
    (maxLevel : Nat) : Except Err (List (Option String) × List Nat) :=
  sucsGo s (s.nodes.length + 1) 1 successor 1 (maxLevel - 1)

/-- `_nodes.update(k, fn)` where `fn` may throw; a missing key is the JS
call of a method on `undefined`. -/
def nodesUpdate {V : Type} (nodes : List (Option String × SLNode V))
    (k : Option String) (f : SLNode V → Except Err (SLNode V)) :
    Except Err (List (Option String × SLNode V)) :=
  match nodes with
  | [] => .error .typeError
  | (k0, n0) :: rest =>
    if k0 = k then do
      let n1 ← f n0
      .ok ((k0, n1) :: rest)
    else do
      let rest1 ← nodesUpdate rest k f
      .ok ((k0, n0) :: rest1)

/-- The level loop inside `SkipList.insertAfter`, threading
`(nodes, preLevel, sucLevel)` over `level = 1 … maxLevel`. -/
def insertLevelLoop {V : Type} (key : Option String) (newLevel maxLevel : Nat)
    (preKeys : List (Option String)) (preCounts : List Nat)
    (sucKeys : List (Option String)) (sucCounts : List Nat) :
    List Nat → (List (Option String × SLNode V) × Nat × Nat) →
    Except Err (List (Option String × SLNode V) × Nat × Nat)
  | [], st => .ok st
  | level :: levels, (nodes, preLevel, sucLevel) => do
    let updateLevel := min level newLevel
    let st1 ←
      if level = maxLevel ∨ preKeys.getD level none ≠ preKeys.getD preLevel none then do
        let nodes1 ← nodesUpdate nodes (preKeys.getD preLevel none)
          (fun nd => nd.insertAfter key updateLevel preLevel (preCounts.getD preLevel 0))
        pure (nodes1, level, sucLevel)
      else pure (nodes, preLevel, sucLevel)
    let st2 ←
      if truthy (sucKeys.getD st1.2.2 none) ∧
          (level = maxLevel ∨ sucKeys.getD level none ≠ sucKeys.getD st1.2.2 none) then do
        let nodes2 ← nodesUpdate st1.1 (sucKeys.getD st1.2.2 none)
          (fun nd => nd.insertBefore key updateLevel st1.2.2 (sucCounts.getD st1.2.2 0))
        pure (nodes2, st1.2.1, level)
      else pure st1
    insertLevelLoop key newLevel maxLevel preKeys preCounts sucKeys sucCounts levels st2

/-- `SkipList.insertAfter`. -/
def insertAfter {V : Type} (s : SkipList V) (predecessor key : Option String)
    (value : Option V) : Except Err (SkipList V) :=
  match key with
  | none => .error .rangeError
  | some ks =>
    if ks = "" then .error .rangeError
    else if s.nodesHas predecessor = false then .error .rangeError
    else if s.nodesHas key then .error .rangeError
    else
      match s.nodesGet none, s.nodesGet predecessor with
      | some head, some predNode => do
        let newLevel := s.rand.headD 1
        let maxLevel := max newLevel head.level
        let suc0 := predNode.nextKey.getD 0 none
        let successor := if truthy suc0 then suc0 else none
        let pre ← s.predecessors predecessor maxLevel
        let suc ← s.successors successor maxLevel
        let st ← insertLevelLoop key newLevel maxLevel pre.1 pre.2 suc.1 suc.2
          ((List.range maxLevel).map (· + 1)) (s.nodes, 0, 0)
        let newNode : SLNode V :=
          ⟨key, value, newLevel, pre.1.take newLevel, suc.1.take newLevel,
            pre.2.take newLevel, suc.2.take newLevel⟩
        .ok ⟨s.length + 1, assocSet st.1 key newNode, s.rand.tail⟩
      | _, _ => .error .typeError

/-- The `while (true)` walk of `SkipList.keyOf`; `target` is the 0-based index. -/
def keyOfLoop {V : Type} (s : SkipList V) (target : Nat) :
    SLNode V → Nat → Nat → Nat → Except Err (Option String)
  | _, _, _, 0 => .error .fuel
  | node, level, count, fuelW + 1 =>
    if count = target + 1 then .ok node.key
    else if count + node.nextCount.getD level 0 > target + 1 then
      keyOfLoop s target node (level - 1) count fuelW
    else
      match s.nodesGet (node.nextKey.getD level none) with
      | none => .error .typeError
      | some nd =>
        keyOfLoop s target nd level (count + node.nextCount.getD level 0) fuelW

/-- `SkipList.keyOf` (negative indices count from the tail). -/
def keyOf {V : Type} (s : SkipList V) (index : Int) : Except Err (Option String) :=
  let idx := if index < 0 then index + s.length else index
  if idx < 0 ∨ s.length ≤ idx then .ok none
  else
    match s.nodesGet none with
    | none => .error .typeError
    | some head =>
      keyOfLoop s idx.toNat head (head.level - 1) 0 (idx.toNat + head.level + 2)

/-- The `while (node && node.key)` walk of `SkipList.indexOf`. -/
def indexOfLoop {V : Type} (s : SkipList V) :
    Option (SLNode V) → Nat → Nat → Except Err Int
  | _, _, 0 => .error .fuel
  | nd?, count, fuelW + 1 =>
    match nd? with
    | none => .ok ((count : Int) - 1)
    | some nd =>
      if truthy nd.key = false then .ok ((count : Int) - 1)
      else indexOfLoop s (s.nodesGet (nd.prevKey.getD (nd.level - 1) none))
        (count + nd.prevCount.getD (nd.level - 1) 0) fuelW

/-- `SkipList.indexOf` (−1 when the key is absent or not a nonempty string). -/
def indexOf {V : Type} (s : SkipList V) (key : Option String) : Except Err Int :=
  match key with
  | none => .ok (-1)
  | some k =>
    if k = "" ∨ s.nodesHas (some k) = false then .ok (-1)
    else indexOfLoop s (s.nodesGet (some k)) 0 (s.nodes.length + 2)

/-- `SkipList.insertIndex`. -/
def insertIndex {V : Type} (s : SkipList V) (index : Int) (key : Option String)
    (value : Option V) : Except Err (SkipList V) :=
  if index < 0 then .error .rangeError
  else if index = 0 then s.insertAfter none key value
  else do
    let k ← s.keyOf (index - 1)
    s.insertAfter k key value

/-- The level loop inside `SkipList.removeKey`. -/
def removeLevelLoop {V : Type} (removedLevel maxLevel : Nat)
    (preKeys : List (Option String)) (preCounts : List Nat)
    (sucKeys : List (Option String)) (sucCounts : List Nat)
    (distances : List Nat) :
    List Nat → (List (Option String × SLNode V) × Nat × Nat) →
    Except Err (List (Option String × SLNode V) × Nat × Nat)
  | [], st => .ok st
  | level :: levels, (nodes, preLevel, sucLevel) => do
    let updateLevel := min level removedLevel
    let st1 ←
      if level = maxLevel ∨ preKeys.getD level none ≠ preKeys.getD preLevel none then do
        let nodes1 ← nodesUpdate nodes (preKeys.getD preLevel none)
          (fun nd => .ok (nd.removeAfter preLevel updateLevel sucKeys distances))
        pure (nodes1, level, sucLevel)
      else pure (nodes, preLevel, sucLevel)
    let st2 ←
      if truthy (sucKeys.getD st1.2.2 none) ∧
          (level = maxLevel ∨ sucKeys.getD level none ≠ sucKeys.getD st1.2.2 none) then do
        let nodes2 ← nodesUpdate st1.1 (sucKeys.getD st1.2.2 none)
          (fun nd => .ok (nd.removeBefore st1.2.2 updateLevel preKeys distances))
        pure (nodes2, st1.2.1, level)
      else pure st1
    removeLevelLoop removedLevel maxLevel preKeys preCounts sucKeys sucCounts
      distances levels st2

/-- `SkipList.removeKey`. -/
def removeKey {V : Type} (s : SkipList V) (key : Option String) :
    Except Err (SkipList V) :=
  match key with
  | none => .error .rangeError
  | some _ =>
    match s.nodesGet key, s.nodesGet none with
    | some removedNode, some head => do
      let maxLevel := head.level
      let pre ← s.predecessors (removedNode.prevKey.getD 0 none) maxLevel
      let suc ← s.successors (removedNode.nextKey.getD 0 none) maxLevel
      let distances := (List.range maxLevel).map
        (fun level => pre.2.getD level 0 + suc.2.getD level 0 - 1)
      let st ← removeLevelLoop removedNode.level maxLevel pre.1 pre.2 suc.1 suc.2
        distances ((List.range maxLevel).map (· + 1)) (assocRemove s.nodes key, 0, 0)
      .ok ⟨s.length - 1, st.1, s.rand⟩
    | _, _ => .error .rangeError

/-- `SkipList.removeIndex`. -/
def removeIndex {V : Type} (s : SkipList V) (index : Int) : Except Err (SkipList V) := do
  let k ← s.keyOf index
  s.removeKey k

/-- `SkipList.getValue`. -/
def getValue {V : Type} (s : SkipList V) (key : Option String) :
    Except Err (Option V) :=
  match key with
  | none => .error .rangeError
  | some k =>
    if k = "" then .error .rangeError
    else .ok ((s.nodesGet (some k)).bind (·.value))

/-- `SkipList.setValue`. -/
def setValue {V : Type} (s : SkipList V) (key : Option String) (value : Option V) :
    Except Err (SkipList V) :=
  match key with
  | none => .error .rangeError
  | some k =>
    if k = "" then .error .rangeError
    else
      match s.nodesGet (some k) with
      | none => .error .rangeError
      | some node =>
        .ok ⟨s.length, assocSet s.nodes (some k) (node.setValue value), s.rand⟩

end SkipList

/-! ## Operation set (`op_set.ts`) -/

/-- `ROOT_ID`. -/
def ROOT_ID : String := "00000000-0000-0000-0000-000000000000"

/-- Op actions. -/
inductive Action where
  | makeMap | makeTable | makeList | makeText | ins | set | del | link
deriving DecidableEq, Repr

/-- An operation.  Absent JS fields are the falsy defaults the code tests
for: `actor = ""`, `seq = 0`, `elem = 0`, `value`/`datatype` `none`,
`key = ""` (never read on `make*` ops). -/
structure Op where
  action : Action
  obj : String
  key : String
  elem : Nat
  value : Option JVal
  datatype : Option String
  actor : String
  seq : Nat
deriving DecidableEq, Repr

/-- A change. -/
structure Change where
  actor : String
  seq : Nat
  deps : List (String × Nat)
  message : Option String
  ops : List Op
deriving DecidableEq, Repr

/-- Immutable.js deep equality on changes: `deps` is compared as a map. -/
def changeBEq (c1 c2 : Change) : Bool :=
  c1.actor = c2.actor && c1.seq = c2.seq && c1.message = c2.message &&
    c1.ops = c2.ops && mapEquiv c1.deps c2.deps

/-- One entry of the per-actor state history: `{change, allDeps}`. -/
structure StateEntry where
  change : Change
  allDeps : List (String × Nat)
deriving DecidableEq, Repr

/-- A skip-list value: a raw op value, or the `{obj: objectId}` wrapper a
`link` op stores in `patchList`. -/
inductive EVal where
  | plain (v : Option JVal)
  | linkObj (obj : String)
deriving DecidableEq, Repr

/-- The per-object record held in `byObject`: creation op, inbound link
ops, per-key field-op lists, and the list bookkeeping (`_following`,
`_insertion`, `_maxElem`, `_elemIds`). -/
structure ObjRec where
  init : Option Op
  inbound : List Op
  fields : List (String × List Op)
  following : List (String × List Op)
  insertion : List (String × Op)
  maxElem : Nat
  elemIds : Option (SkipList EVal)
deriving DecidableEq, Repr

/-- A fresh object record (root object / default for `updateIn`). -/
def ObjRec.fresh : ObjRec := ⟨none, [], [], [], [], 0, none⟩

/-- The backend opSet state (`init()` of `op_set.ts`).  The transient
`undoLocal` key is `some` exactly when present. -/
structure OpSet where
  states : List (String × List StateEntry)
  history : List Change
  byObject : List (String × ObjRec)
  clock : List (String × Nat)
  deps : List (String × Nat)
  localOps : List Op
  undoPos : Nat
  undoStack : List (List Op)
  redoStack : List (List Op)
  queue : List Change
  undoLocal : Option (List Op)
deriving DecidableEq, Repr

/-- `OpSet.init()`. -/
def OpSet.init : OpSet :=
  ⟨[], [], [(ROOT_ID, ObjRec.fresh)], [], [], [], 0, [], [], [], none⟩

namespace OpSet

/-- `getIn(['byObject', objectId])`. -/
def objGet (os : OpSet) (objectId : String) : Option ObjRec :=
  List.lookup objectId os.byObject

/-- `get('byObject').has(objectId)`. -/
def objHas (os : OpSet) (objectId : String) : Bool :=
  (List.lookup objectId os.byObject).isSome

/-- `getIn(['states', actor, i, 'allDeps'])`. -/
def statesAllDeps (os : OpSet) (actor : String) (i : Nat) :
    Option (List (String × Nat)) :=
  ((List.lookup actor os.states).bind (·.get? i)).map (·.allDeps)

/-- `getFieldOps`. -/
def getFieldOps (os : OpSet) (objectId key : String) : List Op :=
  ((os.objGet objectId).map (fun r => (List.lookup key r.fields).getD [])).getD []

/-- `isConcurrent` (falsy `actor`/`seq` on either op short-circuits to
`false`; a missing `allDeps` snapshot is the JS `.get` on `undefined`). -/
def isConcurrent (os : OpSet) (op1 op2 : Op) : Except Err Bool :=
  if op1.actor = "" ∨ op2.actor = "" ∨ op1.seq = 0 ∨ op2.seq = 0 then .ok false
  else
    match os.statesAllDeps op1.actor (op1.seq - 1),
        os.statesAllDeps op2.actor (op2.seq - 1) with
    | some clock1, some clock2 =>
      .ok (decide (clockGet clock1 op2.actor < op2.seq ∧
        clockGet clock2 op1.actor < op1.seq))
    | _, _ => .error .typeError

/-- `causallyReady`. -/
def causallyReady (os : OpSet) (change : Change) : Bool :=
  (assocSet change.deps change.actor (change.seq - 1)).all
    (fun p => ¬ clockGet os.clock p.1 < p.2)

/-- `transitiveDeps` (a dep naming an unapplied change makes the JS
`mergeWith` over `undefined` throw). -/
def transitiveDeps (os : OpSet) (baseDeps : List (String × Nat)) :
    Except Err (List (String × Nat)) :=
  baseDeps.foldlM (fun deps p =>
    if p.2 = 0 then .ok deps
    else
      match os.statesAllDeps p.1 (p.2 - 1) with
      | none => .error .typeError
      | some transitive => .ok (assocSet (mergeMax deps transitive) p.1 p.2))
    []

/-- One component of a root path: a map key or a list index. -/
inductive PathElem where
  | key (k : String)
  | index (n : Nat)
deriving DecidableEq, Repr

/-- `getPath` (the `while` ascent is fueled; the inbound relation is
acyclic on reachable states). -/
def getPath (os : OpSet) : String → Nat → Except Err (Option (List PathElem))
  | _, 0 => .error .fuel
  | objectId, fuelW + 1 =>
    if objectId = ROOT_ID then .ok (some [])
    else
      match ((os.objGet objectId).map (·.inbound)).getD [] |>.head? with
      | none => .ok none
      | some ref =>
        let parent := ref.obj
        let objType := ((os.objGet parent).bind (·.init)).map (·.action)
        if objType = some .makeList ∨ objType = some .makeText then
          match (os.objGet parent).bind (·.elemIds) with
          | none => .error .typeError
          | some elemIds => do
            let idx ← elemIds.indexOf (some ref.key)
            if idx < 0 then .ok none
            else do
              let rest ← os.getPath parent fuelW
              match rest with
              | none => .ok none
              | some p => .ok (some (p ++ [.index idx.toNat]))
        else do
          let rest ← os.getPath parent fuelW
          match rest with
          | none => .ok none
          | some p => .ok (some (p ++ [.key ref.key]))

end OpSet

/-- Diff actions (`ActionT`). -/
inductive DiffAction where
  | create | insert | set | remove
deriving DecidableEq, Repr

/-- Object types (`ItemT`). -/
inductive ItemT where
  | map | table | text | list
deriving DecidableEq, Repr

/-- A reported conflict (`link` is `true` only for `link` ops). -/
structure Conflict where
  actor : String
  value : Option JVal
  link : Bool
deriving DecidableEq, Repr

/-- An emitted diff (`Edit`).  Fields a branch does not assign stay at
their absent defaults (`none` / `false`).  `path` is doubly optional:
unassigned for `create` edits, and possibly `null` when assigned. -/
structure Diff where
  action : DiffAction
  obj : String
  type : ItemT
  key : Option String
  value : Option JVal
  datatype : Option String
  elemId : Option String
  link : Bool
  index : Option Nat
  path : Option (Option (List OpSet.PathElem))
  conflicts : Option (List Conflict)
deriving DecidableEq, Repr

/-- A skeletal diff for `obj` with everything else absent. -/
def Diff.base (action : DiffAction) (obj : String) (type : ItemT) : Diff :=
  ⟨action, obj, type, none, none, none, none, false, none, none, none⟩

namespace OpSet

/-- `applyMake`. -/
def applyMake (os : OpSet) (op : Op) : Except Err (OpSet × List Diff) :=
  let objectId := op.obj
  if os.objHas objectId then .error .duplicateCreate
  else
    let type : ItemT :=
      if op.action = .makeMap then .map
      else if op.action = .makeTable then .table
      else if op.action = .makeText then .text
      else .list
    let object : ObjRec :=
      { ObjRec.fresh with
        init := some op,
        elemIds :=
          if op.action = .makeMap ∨ op.action = .makeTable then none
          else some (SkipList.empty EVal []) }
    .ok ({ os with byObject := assocSet os.byObject objectId object },
      [Diff.base .create objectId type])

/-- `applyInsert`. -/
def applyInsert (os : OpSet) (op : Op) : Except Err (OpSet × List Diff) :=
  let objectId := op.obj
  let elem := op.elem
  let elemId := op.actor ++ ":" ++ toString elem
  if os.objHas objectId = false then .error .unknownObject
  else
    match os.objGet objectId with
    | none => .error .unknownObject
    | some r =>
      if (List.lookup elemId r.insertion).isSome then .error .duplicateElem
      else
        let r1 :=
          { r with
            following := assocSet r.following op.key
              ((List.lookup op.key r.following).getD [] ++ [op]),
            maxElem := max elem r.maxElem,
            insertion := assocSet r.insertion elemId op }
        .ok ({ os with byObject := assocSet os.byObject objectId r1 }, [])

/-- `getConflicts`. -/
def getConflicts (ops : List Op) : List Conflict :=
  (ops.drop 1).map (fun o => ⟨o.actor, o.value, o.action = .link⟩)

/-- JS truthiness filter on a `datatype` slot (`""` is falsy). -/
def dtruthy : Option String → Option String
  | none => none
  | some d => if d = "" then none else some d

/-- `lamportCompare` as a ≤ test (total: `elem` ascending, then actor). -/
def lamportLe (o1 o2 : Op) : Bool :=
  decide (o1.elem < o2.elem) ||
    (decide (o1.elem = o2.elem) && (strLt o1.actor o2.actor || decide (o1.actor = o2.actor)))

/-- `lamportCompare(op, childKey) < 0` against a parsed elem-id. -/
def lamportLtKey (o : Op) (ck : String × Nat) : Bool :=
  decide (o.elem < ck.2) || (decide (o.elem = ck.2) && strLt o.actor ck.1)

/-- The `/^(.*):(\d+)$/` parse of an elem-id: the suffix after the last
colon must be one or more digits. -/
def parseElemId (s : String) : Option (String × Nat) :=
  match (s.splitOn ":").reverse with
  | suffix :: rest₀@(_ :: _) =>
    if suffix ≠ "" ∧ suffix.all Char.isDigit then
      (String.toNat? suffix).map (fun n => (String.intercalate ":" rest₀.reverse, n))
    else none
  | _ => none

/-- `insertionsAfter`: the children of `parentId`, Lamport-descending, as
elem-id strings.  `parentId = none` is the JS `undefined` lookup (empty). -/
def insertionsAfter (os : OpSet) (objectId : String) (parentId : Option String)
    (childId : Option String) : List String :=
  let childKey := childId.bind parseElemId
  let fl : List Op :=
    match parentId with
    | none => []
    | some p => (List.lookup p (((os.objGet objectId).map (·.following)).getD [])).getD []
  ((stableSort lamportLe ((fl.filter (fun op => op.action = .ins)).filter
      (fun op => match childKey with
        | none => true
        | some ck => lamportLtKey op ck))).reverse).map
    (fun op => op.actor ++ ":" ++ toString op.elem)

/-- `getParent`. -/
def getParent (os : OpSet) (objectId key1 : String) : Except Err (Option String) :=
  if key1 = "_head" then .ok none
  else
    match (((os.objGet objectId).map (·.insertion)).getD [] |> List.lookup key1) with
    | none => .error .missingIndexEntry
    | some insOp => .ok (some insOp.key)

/-- The trailing `while (true)` descent of `getPrevious`: the last
descendant of `prevId`. -/
def lastDescendant (os : OpSet) (objectId : String) :
    Option String → Nat → Except Err (Option String)
  | _, 0 => .error .fuel
  | prevId, fuelW + 1 =>
    match (os.insertionsAfter objectId prevId none).getLast? with
    | none => .ok prevId
    | some child => lastDescendant os objectId (some child) fuelW

/-- `getPrevious`. -/
def getPrevious (os : OpSet) (objectId key1 : String) (fuelW : Nat) :
    Except Err (Option String) := do
  let parentId ← os.getParent objectId key1
  let children := os.insertionsAfter objectId parentId none
  if children.head? = some key1 then
    if parentId = some "_head" then .ok none else .ok parentId
  else
    lastDescendant os objectId ((children.takeWhile (· ≠ key1)).getLast?) fuelW

end OpSet

/-- The object-id string carried by a `link` op's `value` (object ids are
strings; a non-string value would never match a stored object key). -/
def linkTarget (o : Op) : Option String :=
  match o.value with
  | some (JVal.str s) => some s
  | _ => none

namespace OpSet

/-- Replace the field-op list of `(objectId, key)` (the
`setIn(['byObject', objectId, key], remaining)`). -/
def setFieldOps (os : OpSet) (objectId key1 : String) (ops : List Op) :
    Except Err OpSet :=
  match os.objGet objectId with
  | none => .error .typeError
  | some r =>
    let r1 := { r with fields := assocSet r.fields key1 ops }
    .ok { os with byObject := assocSet os.byObject objectId r1 }

/-- The fuel used for the `getPath` ascent and the `getPrevious` descents:
bounded by the object count and the insertion count on real states. -/
def pathFuel (os : OpSet) : Nat := os.byObject.length + 1

/-- `patchList`.  `action` is one of `insert`/`set`/`remove`; the skip-list
value stored for a `link` op is the `{obj: …}` wrapper. -/
def patchList (os : OpSet) (objectId : String) (index : Int) (elemId : String)
    (action : DiffAction) (ops : Option (List Op)) : Except Err (OpSet × List Diff) := do
  match os.objGet objectId with
  | none => .error .typeError
  | some r =>
    let type : ItemT :=
      if (r.init.map (·.action)) = some .makeText then .text else .list
    let firstOp := ops.bind (·.head?)
    match r.elemIds with
    | none => .error .typeError
    | some elemIds => do
      let path ← os.getPath objectId os.pathFuel
      let value : Option EVal := firstOp.map (fun f =>
        if f.action = .link then EVal.linkObj ((linkTarget f).getD "") else EVal.plain f.value)
      let d0 : Diff :=
        { Diff.base action objectId type with
          index := some index.toNat, path := some path,
          link := firstOp.map (·.action) = some .link }
      let (elemIds1, d1) ←
        match action, firstOp with
        | .insert, some f => do
          let e ← elemIds.insertIndex index (some f.key) value
          let d := { d0 with
            elemId := some elemId
            value := f.value
            datatype := dtruthy f.datatype }
          .ok (e, d)
        | .set, some f => do
          let e ← elemIds.setValue (some f.key) value
          .ok (e, { d0 with value := f.value, datatype := dtruthy f.datatype })
        | .remove, _ => do
          let e ← elemIds.removeIndex index
          .ok (e, d0)
        | _, _ => .error .typeError
      let d2 :=
        match ops with
        | some l => if 1 < l.length then { d1 with conflicts := some (getConflicts l) } else d1
        | none => d1
      let r1 := { r with elemIds := some elemIds1 }
      .ok ({ os with byObject := assocSet os.byObject objectId r1 }, [d2])

/-- The `while (true)` search of `updateListElement` for the index of the
closest preceding live element (−1 when none). -/
def findPrevLive (os : OpSet) (objectId : String) (elemIds : SkipList EVal) :
    String → Nat → Except Err Int
  | _, 0 => .error .fuel
  | prevId, fuelW + 1 => do
    let p ← os.getPrevious objectId prevId os.pathFuel
    match p with
    | none => .ok (-1)
    | some pid => do
      let idx ← elemIds.indexOf (some pid)
      if idx ≥ 0 then .ok idx else findPrevLive os objectId elemIds pid fuelW

/-- `updateListElement`. -/
def updateListElement (os : OpSet) (objectId elemId : String) :
    Except Err (OpSet × List Diff) := do
  let ops := os.getFieldOps objectId elemId
  match (os.objGet objectId).bind (·.elemIds) with
  | none => .error .typeError
  | some elemIds => do
    let index ← elemIds.indexOf (some elemId)
    if index ≥ 0 then
      if ops = [] then os.patchList objectId index elemId .remove none
      else os.patchList objectId index elemId .set (some ops)
    else
      if ops = [] then .ok (os, [])
      else do
        let idx ← findPrevLive os objectId elemIds elemId (os.pathFuel + 1)
        os.patchList objectId (idx + 1) elemId .insert (some ops)

/-- `updateMapKey`. -/
def updateMapKey (os : OpSet) (objectId : String) (type : ItemT) (key1 : String) :
    Except Err (OpSet × List Diff) := do
  let ops := os.getFieldOps objectId key1
  let path ← os.getPath objectId os.pathFuel
  let d0 : Diff := { Diff.base .set objectId type with key := some key1, path := some path }
  match ops.head? with
  | none => .ok (os, [{ d0 with action := .remove }])
  | some firstOp =>
    let d1 :=
      { d0 with
        value := firstOp.value,
        link := firstOp.action = .link,
        datatype := dtruthy firstOp.datatype,
        conflicts := if 1 < ops.length then some (getConflicts ops) else none }
    .ok (os, [d1])

/-- The `['action', 'obj', 'key', 'value']` projection capturing the undo
history of an overwritten field op. -/
def undoProj (o : Op) : Op :=
  ⟨o.action, o.obj, o.key, 0, o.value, none, "", 0⟩

/-- The `groupBy(isConcurrent)` split into (overwritten, concurrent). -/
def partitionConcurrent (os : OpSet) (prior : List Op) (op : Op) :
    Except Err (List Op × List Op) :=
  prior.foldlM (fun acc other => do
    let b ← os.isConcurrent other op
    if b then .ok (acc.1, acc.2 ++ [other]) else .ok (acc.1 ++ [other], acc.2))
    ([], [])

/-- The stable actor-ascending sort then reversal of `applyAssign`
(`sortBy(actor).reverse()`). -/
def sortByActorDesc (l : List Op) : List Op :=
  (stableSort (fun a b => strLe a.actor b.actor) l).reverse

/-- The `undoLocal` capture at the top of `applyAssign`. -/
def captureUndo (os : OpSet) (op : Op) (topLevel : Bool) : OpSet :=
  if os.undoLocal.isSome ∧ topLevel then
    let undoOps := (os.getFieldOps op.obj op.key).map undoProj
    let undoOps := if undoOps = [] then
      [⟨Action.del, op.obj, op.key, 0, none, none, "", 0⟩] else undoOps
    { os with undoLocal := os.undoLocal.map (· ++ undoOps) }
  else os

/-- The removal of overwritten `link` ops from the inbound index. -/
def removeOverwrittenLinks (os : OpSet) (overwritten : List Op) :
    Except Err OpSet :=
  (overwritten.filter (fun o => o.action = .link)).foldlM
    (fun (acc : OpSet) o =>
      match (linkTarget o).bind acc.objGet with
      | none => .error .typeError
      | some r =>
        let r1 := { r with inbound := r.inbound.erase o }
        .ok { acc with byObject := assocSet acc.byObject ((linkTarget o).getD "") r1 })
    os

/-- The addition of an incoming `link` op to the inbound index (the
`updateIn` default creates a fresh record for an unknown target). -/
def addLinkInbound (os : OpSet) (op : Op) : Except Err OpSet :=
  if op.action = .link then
    match linkTarget op with
    | none => .error .typeError
    | some tgt =>
      let r := (os.objGet tgt).getD ObjRec.fresh
      let r1 := { r with
        inbound := if op ∈ r.inbound then r.inbound else r.inbound ++ [op] }
      .ok { os with byObject := assocSet os.byObject tgt r1 }
  else .ok os

/-- `applyAssign` (a `set`, `del` or `link` op). -/
def applyAssign (os : OpSet) (op : Op) (topLevel : Bool) :
    Except Err (OpSet × List Diff) := do
  let objectId := op.obj
  let objType := ((os.objGet objectId).bind (·.init)).map (·.action)
  if os.objHas objectId = false then .error .unknownObject
  else do
    let os := captureUndo os op topLevel
    let prior := os.getFieldOps objectId op.key
    let parts ← partitionConcurrent os prior op
    let overwritten := parts.1
    let remaining := parts.2
    let os ← removeOverwrittenLinks os overwritten
    let os ← addLinkInbound os op
    let remaining := if op.action ≠ .del then remaining ++ [op] else remaining
    let remaining := sortByActorDesc remaining
    let os ← os.setFieldOps objectId op.key remaining
    if objectId = ROOT_ID ∨ objType = some .makeMap then
      os.updateMapKey objectId .map op.key
    else if objType = some .makeTable then
      os.updateMapKey objectId .table op.key
    else if objType = some .makeList ∨ objType = some .makeText then
      os.updateListElement objectId op.key
    else .error .rangeError

/-- One iteration of the `for` in `applyOps`, dispatching on the op
action; `newObjects` is the set of objects created within this change
(deciding `topLevel`). -/
def applyOpsStep (acc : OpSet × List Diff × List String) (op : Op) :
    Except Err (OpSet × List Diff × List String) := do
  let (os, diffs, newObjects) := acc
  match op.action with
  | .makeMap | .makeList | .makeText | .makeTable => do
    let (os1, d) ← os.applyMake op
    .ok (os1, diffs ++ d, newObjects ++ [op.obj])
  | .ins => do
    let (os1, d) ← os.applyInsert op
    .ok (os1, diffs ++ d, newObjects)
  | .set | .del | .link => do
    let (os1, d) ← os.applyAssign op (¬ op.obj ∈ newObjects)
    .ok (os1, diffs ++ d, newObjects)

/-- `applyOps`. -/
def applyOps (os : OpSet) (ops : List Op) : Except Err (OpSet × List Diff) := do
  let st ← ops.foldlM applyOpsStep (os, [], [])
  .ok (st.1, st.2.1)

/-- `applyChange`. -/
def applyChange (os : OpSet) (change : Change) : Except Err (OpSet × List Diff) := do
  let actor := change.actor
  let seq := change.seq
  let prior := (List.lookup actor os.states).getD []
  if seq ≤ prior.length then
    match (if seq = 0 then none else prior.get? (seq - 1)) with
    | none => .error .typeError
    | some entry =>
      if changeBEq entry.change change then .ok (os, [])
      else .error .inconsistentReuse
  else do
    let allDeps ← os.transitiveDeps (assocSet change.deps actor (seq - 1))
    let entry : StateEntry := ⟨change, allDeps⟩
    let os := { os with states := assocSet os.states actor (prior ++ [entry]) }
    let ops := change.ops.map (fun o => { o with actor := actor, seq := seq })
    let (os, diffs) ← os.applyOps ops
    let remainingDeps := assocSet
      (os.deps.filter (fun p => clockGet allDeps p.1 < p.2)) actor seq
    let os := { os with
      deps := remainingDeps
      clock := assocSet os.clock actor seq
      history := os.history ++ [change] }
    .ok (os, diffs)

/-- One iteration of the `for` inside `applyQueuedOps`: apply the change
if it is causally ready, otherwise retain it. -/
def drainStep (acc : OpSet × List Change × List Diff) (change : Change) :
    Except Err (OpSet × List Change × List Diff) := do
  let (cur, retained, diffs) := acc
  if cur.causallyReady change then do
    let (cur1, d) ← cur.applyChange change
    .ok (cur1, retained, diffs ++ d)
  else .ok (cur, retained ++ [change], diffs)

/-- One full scan of the pending queue: the body of the `while (true)` of
`applyQueuedOps`.  Returns the evolved opSet (whose `queue` field is still
the scanned queue), the retained changes and the diffs emitted. -/
def drainPass (os : OpSet) : Except Err (OpSet × List Change × List Diff) :=
  os.queue.foldlM drainStep (os, [], [])

/-- The `while (true)` loop of `applyQueuedOps`, fueled on the outer
passes; `none` is outer-fuel exhaustion (never reached, see the C4
theorem). -/
def applyQueuedOpsF : Nat → OpSet → List Diff →
    Option (Except Err (OpSet × List Diff))
  | 0, _, _ => none
  | fuelW + 1, os, diffsAcc =>
    match drainPass os with
    | .error e => some (.error e)
    | .ok (os1, retained, d) =>
      if retained.length = os1.queue.length then some (.ok (os1, diffsAcc ++ d))
      else applyQueuedOpsF fuelW { os1 with queue := retained } (diffsAcc ++ d)

/-- `applyQueuedOps`. -/
def applyQueuedOps (os : OpSet) : Except Err (OpSet × List Diff) :=
  (applyQueuedOpsF (os.queue.length + 1) os []).getD (.error .fuel)

/-- `pushUndoHistory`. -/
def pushUndoHistory (os : OpSet) : OpSet :=
  { os with
    undoStack := os.undoStack.take os.undoPos ++ [os.undoLocal.getD []],
    undoPos := os.undoPos + 1,
    redoStack := [],
    undoLocal := none }

/-- `addChange`. -/
def addChange (os : OpSet) (change : Change) (isUndoable : Bool) :
    Except Err (OpSet × List Diff) := do
  let os := { os with queue := os.queue ++ [change] }
  if isUndoable then do
    let (os1, diffs) ← applyQueuedOps { os with undoLocal := some [] }
    .ok (pushUndoHistory os1, diffs)
  else applyQueuedOps os

/-- `getMissingChanges`. -/
def getMissingChanges (os : OpSet) (haveDeps : List (String × Nat)) :
    Except Err (List Change) := do
  let allDeps ← os.transitiveDeps haveDeps
  .ok ((os.states.map (fun p =>
    (p.2.drop (clockGet allDeps p.1)).map (·.change))).flatten)

end OpSet

/-! ## Backend (`backend.ts`, the second half of `skip_list.ts`) -/

/-- The node state `Map({opSet})`. -/
structure BState where
  opSet : OpSet
deriving DecidableEq, Repr

/-- A patch; `actor`/`seq` are stamped on by `applyLocalChange` only. -/
structure Patch where
  clock : List (String × Nat)
  deps : List (String × Nat)
  canUndo : Bool
  canRedo : Bool
  diffs : List Diff
  actor : Option String
  seq : Option Nat
deriving DecidableEq, Repr

/-- `requestType` of a local change request. -/
inductive RequestType where
  | change | undo | redo
deriving DecidableEq, Repr

/-- A local change request (`actor` and `seq` are string/number typed here,
so the `typeof` INVALID_REQUEST guard of `applyLocalChange` cannot fire). -/
structure Request where
  actor : String
  seq : Nat
  deps : List (String × Nat)
  message : Option String
  ops : List Op
  requestType : RequestType
deriving DecidableEq, Repr

/-- `fromJS(change).remove('requestType')`. -/
def Request.toChange (r : Request) : Change :=
  ⟨r.actor, r.seq, r.deps, r.message, r.ops⟩

namespace Backend

/-- `init()`. -/
def init : BState := ⟨OpSet.init⟩

/-- `makePatch`. -/
def makePatch (state : BState) (diffs : List Diff) : Patch :=
  ⟨state.opSet.clock, state.opSet.deps, 0 < state.opSet.undoPos,
    state.opSet.redoStack ≠ [], diffs, none, none⟩

/-- `apply` (the shared body of `applyChanges` and `applyLocalChange`). -/
def apply (state : BState) (changes : List Change) (undoable : Bool) :
    Except Err (BState × Patch) := do
  let st ← changes.foldlM (fun (acc : OpSet × List Diff) change => do
    let (os1, d) ← acc.1.addChange change undoable
    .ok (os1, acc.2 ++ d)) (state.opSet, [])
  let state1 : BState := ⟨st.1⟩
  .ok (state1, makePatch state1 st.2)

/-- `applyChanges`. -/
def applyChanges (state : BState) (changes : List Change) :
    Except Err (BState × Patch) :=
  apply state changes false

/-- `undo`. -/
def undo (state : BState) (request : Request) : Except Err (BState × Patch) := do
  let undoPos := state.opSet.undoPos
  match (if undoPos = 0 then none else state.opSet.undoStack.get? (undoPos - 1)) with
  | none => .error .emptyUndo
  | some undoOps => do
    let change : Change :=
      ⟨request.actor, request.seq, request.deps, request.message, undoOps⟩
    let redoOps ← undoOps.foldlM (fun (acc : List Op) op => do
      if op.action = .set ∨ op.action = .del ∨ op.action = .link then
        let fieldOps := state.opSet.getFieldOps op.obj op.key
        if fieldOps = [] then
          .ok (acc ++ [⟨Action.del, op.obj, op.key, 0, none, none, "", 0⟩])
        else
          .ok (acc ++ fieldOps.map (fun f => { f with actor := "", seq := 0 }))
      else .error .rangeError) []
    let os := { state.opSet with
      undoPos := undoPos - 1
      redoStack := state.opSet.redoStack ++ [redoOps] }
    let (newOpSet, diffs) ← os.addChange change false
    let state1 : BState := ⟨newOpSet⟩
    .ok (state1, makePatch state1 diffs)

/-- `redo`. -/
def redo (state : BState) (request : Request) : Except Err (BState × Patch) := do
  match state.opSet.redoStack.getLast? with
  | none => .error .emptyRedo
  | some redoOps => do
    let change : Change :=
      ⟨request.actor, request.seq, request.deps, request.message, redoOps⟩
    let os := { state.opSet with
      undoPos := state.opSet.undoPos + 1
      redoStack := state.opSet.redoStack.dropLast }
    let (newOpSet, diffs) ← os.addChange change false
    let state1 : BState := ⟨newOpSet⟩
    .ok (state1, makePatch state1 diffs)

/-- `applyLocalChange`. -/
def applyLocalChange (state : BState) (change : Request) :
    Except Err (BState × Patch) := do
  if change.seq ≤ clockGet state.opSet.clock change.actor then
    .error .alreadyApplied
  else do
    let sp ←
      match change.requestType with
      | .change => apply state [change.toChange] true
      | .undo => undo state change
      | .redo => redo state change
    .ok (sp.1, { sp.2 with actor := some change.actor, seq := some change.seq })

end Backend

/-! ## Frontend op filter (`ensureSingleAssignment`) -/

/-- Whether an action is an assignment (`set`/`del`/`link`). -/
def isAssign : Action → Bool
  | .set | .del | .link => true
  | _ => false

/-- The backward scan of `ensureSingleAssignment`: `seen` is the
`assignments` object, the result is the pushed list (reverse order). -/
def singleAssignGo : List Op → List (String × String) → List Op
  | [], _ => []
  | op :: rest, seen =>
    if isAssign op.action then
      if (op.obj, op.key) ∈ seen then singleAssignGo rest seen
      else op :: singleAssignGo rest ((op.obj, op.key) :: seen)
    else op :: singleAssignGo rest seen

/-- `ensureSingleAssignment`. -/
def ensureSingleAssignment (ops : List Op) : List Op :=
  (singleAssignGo ops.reverse []).reverse

/-- Whether `op` is an assignment to the pair `(o, k)`. -/
def isAssignTo (o k : String) (op : Op) : Bool :=
  isAssign op.action && op.obj = o && op.key = k

/-! ### Lemmas about the single-assignment filter -/

theorem singleAssignGo_sublist (l : List Op) (seen : List (String × String)) :
    (singleAssignGo l seen).Sublist l := by
  induction l generalizing seen with
  | nil => simp [singleAssignGo]
  | cons op rest ih =>
    unfold singleAssignGo
    by_cases ha : isAssign op.action
    · simp only [ha, if_true]
      by_cases hs : (op.obj, op.key) ∈ seen
      · simp only [hs, if_pos]
        exact (ih seen).trans (List.sublist_cons_self op rest)
      · simp only [hs, if_neg, not_false_iff]
        exact (ih _).cons₂ op
    · simp only [ha, if_false, Bool.false_eq_true]
      exact (ih seen).cons₂ op

theorem isAssignTo_false_of_ne {o k : String} {op : Op}
    (he : ¬(o, k) = (op.obj, op.key)) : isAssignTo o k op = false := by
  by_cases h1 : op.obj = o
  · by_cases h2 : op.key = k
    · exact absurd (by simp [Prod.ext_iff, h1, h2]) he
    · simp [isAssignTo, h2]
  · simp [isAssignTo, h1]

theorem singleAssignGo_filter_assign (l : List Op) (seen : List (String × String))
    (o k : String) :
    (singleAssignGo l seen).filter (isAssignTo o k) =
      if (o, k) ∈ seen then [] else (l.filter (isAssignTo o k)).take 1 := by
  induction l generalizing seen with
  | nil => simp [singleAssignGo]
  | cons op rest ih =>
    unfold singleAssignGo
    by_cases ha : isAssign op.action
    · simp only [ha, if_true]
      by_cases hs : (op.obj, op.key) ∈ seen
      · rw [if_pos hs, ih]
        by_cases he : (o, k) = (op.obj, op.key)
        · have hos : (o, k) ∈ seen := he ▸ hs
          simp [hos]
        · rw [List.filter_cons_of_neg (by simp [isAssignTo_false_of_ne he])]
      · rw [if_neg hs]
        by_cases he : (o, k) = (op.obj, op.key)
        · have hat : isAssignTo o k op = true := by
            have h1 := (Prod.ext_iff.mp he).1
            have h2 := (Prod.ext_iff.mp he).2
            simp only [isAssignTo, ha, Bool.true_and, Bool.and_eq_true, decide_eq_true_eq]
            exact ⟨h1.symm, h2.symm⟩
          rw [List.filter_cons_of_pos (by simp [hat]), ih]
          have hmem : (o, k) ∈ (op.obj, op.key) :: seen := by
            rw [he]; exact List.mem_cons_self _ _
          simp only [hmem, if_pos]
          by_cases hos : (o, k) ∈ seen
          · exact absurd (he ▸ hos) hs
          · rw [if_neg hos, List.filter_cons_of_pos (by simp [hat])]
            simp
        · rw [List.filter_cons_of_neg (by simp [isAssignTo_false_of_ne he]), ih,
            List.filter_cons_of_neg (by simp [isAssignTo_false_of_ne he])]
          have hiff : ((o, k) ∈ (op.obj, op.key) :: seen) ↔ ((o, k) ∈ seen) := by
            simp only [List.mem_cons]
            constructor
            · rintro (h | h)
              · exact absurd h he
              · exact h
            · exact fun h => Or.inr h
          by_cases hos : (o, k) ∈ seen
          · simp [hos, hiff.mpr hos]
          · rw [if_neg hos, if_neg (fun h => hos (hiff.mp h))]
    · have hfa : isAssignTo o k op = false := by
        simp [isAssignTo, ha]
      simp only [ha, if_false, Bool.false_eq_true]
      rw [List.filter_cons_of_neg (by simp [hfa]), ih,
        List.filter_cons_of_neg (by simp [hfa])]

theorem singleAssignGo_filter_nonassign (l : List Op) (seen : List (String × String)) :
    (singleAssignGo l seen).filter (fun op => !isAssign op.action) =
      l.filter (fun op => !isAssign op.action) := by
  induction l generalizing seen with
  | nil => simp [singleAssignGo]
  | cons op rest ih =>
    unfold singleAssignGo
    by_cases ha : isAssign op.action
    · simp only [ha, if_true]
      by_cases hs : (op.obj, op.key) ∈ seen
      · rw [if_pos hs, ih, List.filter_cons_of_neg (by simp [ha])]
      · rw [if_neg hs, List.filter_cons_of_neg (by simp [ha]), ih,
          List.filter_cons_of_neg (by simp [ha])]
    · simp only [ha, if_false, Bool.false_eq_true]
      rw [List.filter_cons_of_pos (by simp [ha]), ih,
        List.filter_cons_of_pos (by simp [ha])]

theorem take_one_reverse {α : Type} (l : List α) :
    (l.reverse.take 1).reverse = l.getLast?.toList := by
  rw [List.getLast?_eq_head?_reverse]
  cases h : l.reverse with
  | nil => simp
  | cons x xs => simp

/-- **C8**.  `ensureSingleAssignment` keeps, for each `(obj, key)` pair,
only the last `set`/`del`/`link` op (dropping every earlier assignment to
that pair), preserves all non-assignment (`ins`, `make*`) ops, and keeps
all retained ops in their original relative order (the result is a
sublist of the input). -/
theorem C8_single_assignment_filter (ops : List Op) :
    (ensureSingleAssignment ops).Sublist ops ∧
    (∀ o k : String, (ensureSingleAssignment ops).filter (isAssignTo o k) =
      (ops.filter (isAssignTo o k)).getLast?.toList) ∧
    (ensureSingleAssignment ops).filter (fun op => !isAssign op.action) =
      ops.filter (fun op => !isAssign op.action) := by
  refine ⟨?_, ?_, ?_⟩
  · have h := (singleAssignGo_sublist ops.reverse []).reverse
    simpa [ensureSingleAssignment] using h
  · intro o k
    have h := singleAssignGo_filter_assign ops.reverse [] o k
    simp only [List.not_mem_nil, if_neg, if_false] at h
    calc (ensureSingleAssignment ops).filter (isAssignTo o k)
        = ((singleAssignGo ops.reverse []).filter (isAssignTo o k)).reverse := by
          simp [ensureSingleAssignment, List.filter_reverse]
      _ = ((ops.reverse.filter (isAssignTo o k)).take 1).reverse := by rw [h]
      _ = (((ops.filter (isAssignTo o k)).reverse).take 1).reverse := by
          rw [List.filter_reverse]
      _ = (ops.filter (isAssignTo o k)).getLast?.toList := take_one_reverse _
  · have h := singleAssignGo_filter_nonassign ops.reverse []
    calc (ensureSingleAssignment ops).filter (fun op => !isAssign op.action)
        = ((singleAssignGo ops.reverse []).filter (fun op => !isAssign op.action)).reverse := by
          simp [ensureSingleAssignment, List.filter_reverse]
      _ = (ops.reverse.filter (fun op => !isAssign op.action)).reverse := by rw [h]
      _ = ops.filter (fun op => !isAssign op.action) := by
          rw [List.filter_reverse, List.reverse_reverse]

/-! ### C3: duplicate-change handling -/

/-- A change whose `(actor, seq)` was already applied with equal content is
silently ignored by `applyChange`. -/
theorem applyChange_already_applied (os : OpSet) (change : Change) (entry : StateEntry)
    (h1 : 1 ≤ change.seq)
    (h2 : ((List.lookup change.actor os.states).getD []).get? (change.seq - 1) =
      some entry)
    (heq : changeBEq entry.change change = true) :
    os.applyChange change = .ok (os, []) := by
  have hlt : change.seq - 1 < ((List.lookup change.actor os.states).getD []).length :=
    (List.get?_eq_some.mp h2).1
  have hlen : change.seq ≤ ((List.lookup change.actor os.states).getD []).length := by
    omega
  have h0 : ¬ change.seq = 0 := by omega
  unfold OpSet.applyChange
  simp only [if_pos hlen, if_neg h0, h2, heq, if_true]

/-- A change reusing an applied `(actor, seq)` with different content makes
`applyChange` fail. -/
theorem applyChange_inconsistent_reuse (os : OpSet) (change : Change) (entry : StateEntry)
    (h1 : 1 ≤ change.seq)
    (h2 : ((List.lookup change.actor os.states).getD []).get? (change.seq - 1) =
      some entry)
    (hne : changeBEq entry.change change = false) :
    os.applyChange change = .error .inconsistentReuse := by
  have hlt : change.seq - 1 < ((List.lookup change.actor os.states).getD []).length :=
    (List.get?_eq_some.mp h2).1
  have hlen : change.seq ≤ ((List.lookup change.actor os.states).getD []).length := by
    omega
  have h0 : ¬ change.seq = 0 := by omega
  unfold OpSet.applyChange
  simp only [if_pos hlen, if_neg h0, h2, hne, Bool.false_eq_true, if_false]

/-- **C3**.  For a change whose `(actor, seq)` has already been applied
(`seq ≥ 1` and the actor's state history has an entry at `seq − 1`):
if the stored change equals the incoming change (Immutable.js deep
equality), `applyChange` returns the state unchanged with an empty diff
list; if the content differs, it fails with the inconsistent-reuse error. -/
theorem C3_duplicate_change (os : OpSet) (change : Change) (entry : StateEntry)
    (h1 : 1 ≤ change.seq)
    (h2 : ((List.lookup change.actor os.states).getD []).get? (change.seq - 1) =
      some entry) :
    (changeBEq entry.change change = true → os.applyChange change = .ok (os, [])) ∧
    (changeBEq entry.change change = false →
      os.applyChange change = .error .inconsistentReuse) :=
  ⟨fun heq => applyChange_already_applied os change entry h1 h2 heq,
   fun hne => applyChange_inconsistent_reuse os change entry h1 h2 hne⟩

def ex3change : Change := ⟨"A", 1, [], none, []⟩

def ex3bad : Change :=
  ⟨"A", 1, [], none, [⟨Action.set, ROOT_ID, "x", 0, some (.num 7), none, "", 0⟩]⟩

def ex3os : OpSet :=
  { OpSet.init with states := [("A", [⟨ex3change, []⟩])], clock := [("A", 1)] }

theorem C3_duplicate_change_witness :
    OpSet.applyChange ex3os ex3change = .ok (ex3os, []) ∧
    OpSet.applyChange ex3os ex3bad = .error .inconsistentReuse := by
  constructor
  · exact (C3_duplicate_change ex3os ex3change ⟨ex3change, []⟩ (by decide)
      (by decide)).1 (by decide)
  · exact (C3_duplicate_change ex3os ex3bad ⟨ex3change, []⟩ (by decide)
      (by decide)).2 (by decide)

/-! ### C7: `ins` with an unknown parent elem-id -/

def ex7rec : ObjRec :=
  { ObjRec.fresh with
    init := some ⟨Action.makeList, "LIST1", "", 0, none, none, "A", 1⟩,
    elemIds := some (SkipList.empty EVal []) }

def ex7os : OpSet :=
  { OpSet.init with byObject := OpSet.init.byObject ++ [("LIST1", ex7rec)] }

def ex7op : Op := ⟨Action.ins, "LIST1", "Z:9", 1, none, none, "B", 1⟩

/-- The record update `applyInsert` performs: the op appended under
`_following[key]`, `_maxElem` raised, the op stored under its elem-id. -/
def ObjRec.withIns (r : ObjRec) (op : Op) : ObjRec :=
  { r with
    following := assocSet r.following op.key
      ((List.lookup op.key r.following).getD [] ++ [op]),
    maxElem := max op.elem r.maxElem,
    insertion := assocSet r.insertion (op.actor ++ ":" ++ toString op.elem) op }

/-- **C7, counterexample.**  At a concrete state holding an empty list
object, an `ins` whose `key` (`"Z:9"`) is neither `"_head"` nor the
elem-id of any applied insertion does NOT fail: `applyInsert` returns
`.ok`, refuting the claim that it fails with an unknown-predecessor
error. -/
theorem C7_counterexample :
    ex7op.key ≠ "_head" ∧
    List.lookup ex7op.key (((ex7os.objGet "LIST1").map (·.insertion)).getD []) = none ∧
    (OpSet.applyInsert ex7os ex7op).toOption.isSome = true := by decide

/-- **C7, amended.**  `applyInsert` does not validate the parent elem-id:
for a known object and a fresh elem-id, an `ins` op succeeds (with no
diffs) even when its `key` is neither `"_head"` nor a previously applied
insertion, and the op is recorded under `_following[key]`,
`_insertion[elemId]` and `_maxElem`.  (The dangling parent only causes a
missing-index-entry error later, when a subsequent assignment makes the
element visible.) -/
theorem C7_unknown_parent_ins_succeeds (os : OpSet) (op : Op) (r : ObjRec)
    (hobj : os.objGet op.obj = some r)
    (hfresh : List.lookup (op.actor ++ ":" ++ toString op.elem) r.insertion = none)
    (hparent : op.key ≠ "_head" ∧ List.lookup op.key r.insertion = none) :
    os.applyInsert op =
      .ok ({ os with byObject := assocSet os.byObject op.obj (r.withIns op) }, []) := by
  have hhas : os.objHas op.obj = true := by
    unfold OpSet.objHas
    unfold OpSet.objGet at hobj
    simp [hobj]
  simp [OpSet.applyInsert, hhas, hobj, hfresh, ObjRec.withIns]

theorem C7_unknown_parent_witness :
    (OpSet.applyInsert ex7os ex7op).toOption.map
      (fun p => List.lookup "B:1" (((p.1.objGet "LIST1").map (·.insertion)).getD [])) =
      some (some ex7op) := by
  rw [C7_unknown_parent_ins_succeeds ex7os ex7op ex7rec (by decide) (by decide)
    ⟨by decide, by decide⟩]
  decide

/-! ### C10: `applyLocalChange` rejects already-applied sequence numbers -/

theorem opset_set_queue_self (os : OpSet) (h : os.queue = []) :
    ({ os with queue := ([] : List Change) } : OpSet) = os := by
  cases os
  simp only at h
  subst h
  rfl

/-- Draining a queue that holds exactly one already-applied (content-equal,
causally ready) change applies nothing and just empties the queue. -/
theorem applyQueuedOps_single_duplicate (os1 : OpSet) (c : Change) (entry : StateEntry)
    (hqq : os1.queue = [c])
    (h1 : 1 ≤ c.seq)
    (h2 : ((List.lookup c.actor os1.states).getD []).get? (c.seq - 1) = some entry)
    (heq : changeBEq entry.change c = true)
    (hready : os1.causallyReady c = true) :
    OpSet.applyQueuedOps os1 = .ok ({ os1 with queue := ([] : List Change) }, []) := by
  have happ : os1.applyChange c = .ok (os1, []) :=
    applyChange_already_applied os1 c entry h1 h2 heq
  have hdp : OpSet.drainPass os1 = .ok (os1, [], []) := by
    unfold OpSet.drainPass
    rw [hqq]
    simp only [List.foldlM, OpSet.drainStep, hready, if_true, happ]
    rfl
  have hdp2 : OpSet.drainPass { os1 with queue := ([] : List Change) } =
      .ok ({ os1 with queue := ([] : List Change) }, [], []) := by
    unfold OpSet.drainPass
    simp only [List.foldlM, OpSet.drainStep]
    rfl
  unfold OpSet.applyQueuedOps
  rw [hqq]
  show (OpSet.applyQueuedOpsF (1 + 1) os1 []).getD (.error .fuel) = _
  rw [OpSet.applyQueuedOpsF, hdp]
  simp only [hqq, List.length_nil, List.length_cons, Nat.zero_ne_add_one, if_false,
    List.nil_append]
  rw [OpSet.applyQueuedOpsF, hdp2]
  simp

/-- **C10**.  `applyLocalChange` raises the already-applied error whenever
the request's `seq` is at most the state's clock entry for its actor —
regardless of the request's content or type; by contrast, remote
application via `applyChanges` silently ignores an identical
already-applied change, returning the state unchanged with no diffs. -/
theorem C10_local_already_applied (state : BState) (req : Request)
    (h : req.seq ≤ clockGet state.opSet.clock req.actor) :
    Backend.applyLocalChange state req = .error .alreadyApplied ∧
    (∀ entry : StateEntry,
      ((List.lookup req.actor state.opSet.states).getD []).get? (req.seq - 1) =
        some entry →
      changeBEq entry.change req.toChange = true →
      state.opSet.causallyReady req.toChange = true →
      1 ≤ req.seq →
      state.opSet.queue = [] →
      ∃ patch, Backend.applyChanges state [req.toChange] = .ok (state, patch) ∧
        patch.diffs = []) := by
  constructor
  · unfold Backend.applyLocalChange
    simp [h]
  · intro entry h2 heq hready h1 hq
    have hadd : state.opSet.addChange req.toChange false = .ok (state.opSet, []) := by
      have h5 := applyQueuedOps_single_duplicate
        { state.opSet with queue := [req.toChange] } req.toChange entry rfl h1 h2 heq
        hready
      have h6 : ({ { state.opSet with queue := [req.toChange] } with
          queue := ([] : List Change) } : OpSet) = state.opSet := by
        have hgen : ∀ (os : OpSet), os.queue = [] →
            ({ { os with queue := [req.toChange] } with
              queue := ([] : List Change) } : OpSet) = os := by
          intro os hqe
          cases os
          simp only at hqe
          subst hqe
          rfl
        exact hgen state.opSet hq
      simp only [OpSet.addChange, Bool.false_eq_true, if_false, hq, List.nil_append]
      rw [h5, h6]
    refine ⟨Backend.makePatch state [], ?_, rfl⟩
    unfold Backend.applyChanges Backend.apply
    simp [List.foldlM, hadd]
    cases state
    rfl

def ex10req : Request := ⟨"A", 1, [], none, [], RequestType.change⟩

def ex10state : BState :=
  ⟨{ OpSet.init with states := [("A", [⟨ex10req.toChange, []⟩])], clock := [("A", 1)] }⟩

theorem C10_local_already_applied_witness :
    Backend.applyLocalChange ex10state ex10req = .error .alreadyApplied ∧
    (∃ patch, Backend.applyChanges ex10state [ex10req.toChange] = .ok (ex10state, patch) ∧
      patch.diffs = []) := by
  have h := C10_local_already_applied ex10state ex10req (by decide)
  exact ⟨h.1, h.2 ⟨ex10req.toChange, []⟩ (by decide) (by decide) (by decide) (by decide)
    (by decide)⟩

/-! ### C2: field winner determinism -/

theorem except_bind_ok {ε α β : Type} (a : α) (f : α → Except ε β) :
    (Except.ok a >>= f) = f a := rfl

theorem except_bind_error {ε α β : Type} (e : ε) (f : α → Except ε β) :
    ((Except.error e : Except ε α) >>= f) = Except.error e := rfl

theorem lookup_assocSet {K A : Type} [DecidableEq K] (m : List (K × A)) (k k2 : K)
    (v : A) :
    List.lookup k2 (assocSet m k v) = if k2 = k then some v else List.lookup k2 m := by
  induction m with
  | nil =>
    by_cases h : k2 = k
    · simp [assocSet, List.lookup, h]
    · have hb : (k2 == k) = false := by simp [beq_iff_eq, h]
      simp [assocSet, List.lookup, h, hb]
  | cons p rest ih =>
    obtain ⟨a, b⟩ := p
    by_cases h0 : a = k
    · subst h0
      by_cases h : k2 = a
      · simp [assocSet, List.lookup, h]
      · have hb : (k2 == a) = false := by simp [beq_iff_eq, h]
        simp [assocSet, List.lookup, h, hb]
    · by_cases h : k2 = a
      · have hk : ¬ k2 = k := by rw [h]; exact h0
        simp [assocSet, List.lookup, h0, h, hk]
      · have hb : (k2 == a) = false := by simp [beq_iff_eq, h]
        simp [assocSet, List.lookup, h0, h, hb, ih]

theorem objGet_assocSet (os : OpSet) (tgt : String) (r1 : ObjRec) (o : String) :
    OpSet.objGet { os with byObject := assocSet os.byObject tgt r1 } o =
      if o = tgt then some r1 else os.objGet o := by
  unfold OpSet.objGet
  simp only
  exact lookup_assocSet _ _ _ _

/-- Replacing an object record with one carrying the same `fields` (or
adding a fresh record for an unknown id) leaves every `getFieldOps`
unchanged. -/
theorem getFieldOps_assocSet (os : OpSet) (tgt : String) (r1 : ObjRec)
    (h : r1.fields = ((os.objGet tgt).map (·.fields)).getD []) (o k : String) :
    OpSet.getFieldOps { os with byObject := assocSet os.byObject tgt r1 } o k =
      os.getFieldOps o k := by
  unfold OpSet.getFieldOps
  rw [objGet_assocSet]
  by_cases ho : o = tgt
  · subst ho
    rw [if_pos rfl]
    simp only [Option.map_some', Option.getD_some]
    rw [h]
    cases hl : os.objGet o with
    | none => simp
    | some r => simp
  · rw [if_neg ho]

theorem captureUndo_getFieldOps (os : OpSet) (op : Op) (top : Bool) (o k : String) :
    (OpSet.captureUndo os op top).getFieldOps o k = os.getFieldOps o k := by
  unfold OpSet.captureUndo
  split <;> rfl

theorem captureUndo_states (os : OpSet) (op : Op) (top : Bool) :
    (OpSet.captureUndo os op top).states = os.states := by
  unfold OpSet.captureUndo
  split <;> rfl

theorem captureUndo_objHas (os : OpSet) (op : Op) (top : Bool) (o : String) :
    (OpSet.captureUndo os op top).objHas o = os.objHas o := by
  unfold OpSet.captureUndo
  split <;> rfl

theorem removeOverwrittenLinks_getFieldOps (l : List Op) (os os1 : OpSet)
    (h : OpSet.removeOverwrittenLinks os l = .ok os1) (o k : String) :
    os1.getFieldOps o k = os.getFieldOps o k := by
  unfold OpSet.removeOverwrittenLinks at h
  generalize hf : l.filter (fun o => o.action = .link) = fl at h
  clear hf
  induction fl generalizing os with
  | nil =>
    simp only [List.foldlM] at h
    cases h
    rfl
  | cons x xs ih =>
    simp only [List.foldlM] at h
    cases hx : (linkTarget x).bind os.objGet with
    | none => rw [hx] at h; exact Except.noConfusion h
    | some r =>
      rw [hx] at h
      have step := ih _ h
      rw [step]
      cases hlt : linkTarget x with
      | none => rw [hlt] at hx; simp at hx
      | some tgt =>
        rw [hlt] at hx
        simp at hx
        simp only [hlt, Option.getD_some]
        exact getFieldOps_assocSet os tgt _ (by simp [hx]) o k

theorem addLinkInbound_getFieldOps (os os1 : OpSet) (op : Op)
    (h : OpSet.addLinkInbound os op = .ok os1) (o k : String) :
    os1.getFieldOps o k = os.getFieldOps o k := by
  unfold OpSet.addLinkInbound at h
  by_cases ha : op.action = Action.link
  · rw [if_pos ha] at h
    cases hlt : linkTarget op with
    | none => rw [hlt] at h; cases h
    | some tgt =>
      rw [hlt] at h
      simp only [Except.ok.injEq] at h
      subst h
      refine getFieldOps_assocSet os tgt _ ?_ o k
      cases hg : os.objGet tgt <;> simp [hg, ObjRec.fresh]
  · rw [if_neg ha] at h
    cases h
    rfl

theorem setFieldOps_getFieldOps_self (os os1 : OpSet) (o k : String) (l : List Op)
    (h : os.setFieldOps o k l = .ok os1) :
    os1.getFieldOps o k = l := by
  unfold OpSet.setFieldOps at h
  cases hg : os.objGet o with
  | none => rw [hg] at h; cases h
  | some r =>
    rw [hg] at h
    simp only [Except.ok.injEq] at h
    subst h
    unfold OpSet.getFieldOps OpSet.objGet
    simp only
    rw [lookup_assocSet, if_pos rfl]
    simp [lookup_assocSet]

theorem updateMapKey_state (os os1 : OpSet) (o : String) (t : ItemT) (k : String)
    (d : List Diff) (h : os.updateMapKey o t k = .ok (os1, d)) : os1 = os := by
  unfold OpSet.updateMapKey at h
  cases hp : os.getPath o os.pathFuel with
  | error e =>
    simp only [hp, except_bind_error] at h
    exact Except.noConfusion h
  | ok path =>
    simp only [hp, except_bind_ok] at h
    cases hh : (os.getFieldOps o k).head? with
    | none =>
      simp only [hh, Except.ok.injEq, Prod.mk.injEq] at h
      exact h.1.symm
    | some f =>
      simp only [hh, Except.ok.injEq, Prod.mk.injEq] at h
      exact h.1.symm

theorem patchList_getFieldOps (os os1 : OpSet) (o : String) (idx : Int) (e : String)
    (a : DiffAction) (ops : Option (List Op)) (d : List Diff)
    (h : os.patchList o idx e a ops = .ok (os1, d)) (o2 k2 : String) :
    os1.getFieldOps o2 k2 = os.getFieldOps o2 k2 := by
  unfold OpSet.patchList at h
  cases hg : os.objGet o with
  | none =>
    simp only [hg] at h
    exact Except.noConfusion h
  | some r =>
    simp only [hg] at h
    cases he : r.elemIds with
    | none =>
      simp only [he] at h
      exact Except.noConfusion h
    | some elemIds =>
      simp only [he] at h
      cases hp : os.getPath o os.pathFuel with
      | error er =>
        simp only [hp, except_bind_error] at h
        exact Except.noConfusion h
      | ok path =>
        simp only [hp, except_bind_ok] at h
        have key : ∀ eNew : SkipList EVal,
            OpSet.getFieldOps
              { os with byObject :=
                assocSet os.byObject o { r with elemIds := some eNew } } o2 k2 =
              os.getFieldOps o2 k2 :=
          fun eNew => getFieldOps_assocSet os o _ (by simp [hg]) o2 k2
        rcases a with _ | _ | _ | _ <;>
          rcases hfo : ops.bind (·.head?) with _ | f <;>
            simp only [hfo, Option.map_some', except_bind_error, except_bind_ok] at h <;>
            (try exact Except.noConfusion h)
        · -- insert, some f
          cases hi : elemIds.insertIndex idx (some f.key)
            (some (if f.action = Action.link then EVal.linkObj ((linkTarget f).getD "")
              else EVal.plain f.value)) with
          | error er =>
            simp only [hi, except_bind_error] at h
            exact Except.noConfusion h
          | ok e1 =>
            simp only [hi, except_bind_ok, Except.ok.injEq, Prod.mk.injEq] at h
            rw [← h.1]
            exact key e1
        · -- set, some f
          cases hi : elemIds.setValue (some f.key)
            (some (if f.action = Action.link then EVal.linkObj ((linkTarget f).getD "")
              else EVal.plain f.value)) with
          | error er =>
            simp only [hi, except_bind_error] at h
            exact Except.noConfusion h
          | ok e1 =>
            simp only [hi, except_bind_ok, Except.ok.injEq, Prod.mk.injEq] at h
            rw [← h.1]
            exact key e1
        · -- remove, none
          cases hi : elemIds.removeIndex idx with
          | error er =>
            simp only [hi, except_bind_error] at h
            exact Except.noConfusion h
          | ok e1 =>
            simp only [hi, except_bind_ok, Except.ok.injEq, Prod.mk.injEq] at h
            rw [← h.1]
            exact key e1
        · -- remove, some f
          cases hi : elemIds.removeIndex idx with
          | error er =>
            simp only [hi, except_bind_error] at h
            exact Except.noConfusion h
          | ok e1 =>
            simp only [hi, except_bind_ok, Except.ok.injEq, Prod.mk.injEq] at h
            rw [← h.1]
            exact key e1

theorem updateListElement_getFieldOps (os os1 : OpSet) (o e : String) (d : List Diff)
    (h : os.updateListElement o e = .ok (os1, d)) (o2 k2 : String) :
    os1.getFieldOps o2 k2 = os.getFieldOps o2 k2 := by
  unfold OpSet.updateListElement at h
  cases hel : (os.objGet o).bind (·.elemIds) with
  | none =>
    simp only [hel] at h
    exact Except.noConfusion h
  | some elemIds =>
    simp only [hel] at h
    cases hio : elemIds.indexOf (some e) with
    | error er =>
      simp only [hio, except_bind_error] at h
      exact Except.noConfusion h
    | ok index =>
      simp only [hio, except_bind_ok] at h
      by_cases hge : index ≥ 0
      · rw [if_pos hge] at h
        by_cases hops : os.getFieldOps o e = []
        · rw [if_pos hops] at h
          exact patchList_getFieldOps os os1 o index e .remove none d h o2 k2
        · rw [if_neg hops] at h
          exact patchList_getFieldOps os os1 o index e .set _ d h o2 k2
      · rw [if_neg hge] at h
        by_cases hops : os.getFieldOps o e = []
        · rw [if_pos hops] at h
          simp only [Except.ok.injEq, Prod.mk.injEq] at h
          rw [← h.1]
        · rw [if_neg hops] at h
          cases hfp : OpSet.findPrevLive os o elemIds e (os.pathFuel + 1) with
          | error er =>
            simp only [hfp, except_bind_error] at h
            exact Except.noConfusion h
          | ok idx2 =>
            simp only [hfp, except_bind_ok] at h
            exact patchList_getFieldOps os os1 o (idx2 + 1) e .insert _ d h o2 k2

/-- Any successful `applyAssign` leaves, at the target `(obj, key)`, the
actor-descending sort of some op list (the surviving concurrent set). -/
theorem applyAssign_fieldOps (os os1 : OpSet) (op : Op) (top : Bool)
    (diffs : List Diff) (h : os.applyAssign op top = .ok (os1, diffs)) :
    ∃ rem : List Op, os1.getFieldOps op.obj op.key = OpSet.sortByActorDesc rem := by
  unfold OpSet.applyAssign at h
  by_cases hhas : os.objHas op.obj = false
  · rw [if_pos hhas] at h
    exact Except.noConfusion h
  · rw [if_neg hhas] at h
    cases hp : OpSet.partitionConcurrent (OpSet.captureUndo os op top)
        ((OpSet.captureUndo os op top).getFieldOps op.obj op.key) op with
    | error er =>
      simp only [hp, except_bind_error] at h
      exact Except.noConfusion h
    | ok parts =>
      simp only [hp, except_bind_ok] at h
      cases hro : OpSet.removeOverwrittenLinks (OpSet.captureUndo os op top) parts.1 with
      | error er =>
        simp only [hro, except_bind_error] at h
        exact Except.noConfusion h
      | ok os3 =>
        simp only [hro, except_bind_ok] at h
        cases hal : OpSet.addLinkInbound os3 op with
        | error er =>
          simp only [hal, except_bind_error] at h
          exact Except.noConfusion h
        | ok os4 =>
          simp only [hal, except_bind_ok] at h
          cases hsf : os4.setFieldOps op.obj op.key (OpSet.sortByActorDesc
              (if op.action ≠ Action.del then parts.2 ++ [op] else parts.2)) with
          | error er =>
            simp only [hsf, except_bind_error] at h
            exact Except.noConfusion h
          | ok os5 =>
            simp only [hsf, except_bind_ok] at h
            refine ⟨if op.action ≠ Action.del then parts.2 ++ [op] else parts.2, ?_⟩
            have h5 : os5.getFieldOps op.obj op.key = OpSet.sortByActorDesc
                (if op.action ≠ Action.del then parts.2 ++ [op] else parts.2) :=
              setFieldOps_getFieldOps_self os4 os5 op.obj op.key _ hsf
            by_cases h1 : op.obj = ROOT_ID ∨
                ((os.objGet op.obj).bind (·.init)).map (·.action) = some Action.makeMap
            · rw [if_pos h1] at h
              rw [updateMapKey_state os5 os1 op.obj .map op.key diffs h]
              exact h5
            · rw [if_neg h1] at h
              by_cases h2 : ((os.objGet op.obj).bind (·.init)).map (·.action) =
                  some Action.makeTable
              · rw [if_pos h2] at h
                rw [updateMapKey_state os5 os1 op.obj .table op.key diffs h]
                exact h5
              · rw [if_neg h2] at h
                by_cases h3 : ((os.objGet op.obj).bind (·.init)).map (·.action) =
                    some Action.makeList ∨
                  ((os.objGet op.obj).bind (·.init)).map (·.action) = some Action.makeText
                · rw [if_pos h3] at h
                  rw [updateListElement_getFieldOps os5 os1 op.obj op.key diffs h
                    op.obj op.key]
                  exact h5
                · rw [if_neg h3] at h
                  exact Except.noConfusion h

theorem mem_insertOrd {α : Type} (le : α → α → Bool) (x : α) (l : List α) :
    ∀ z ∈ insertOrd le x l, z = x ∨ z ∈ l := by
  induction l with
  | nil => intro z hz; simp [insertOrd] at hz; exact Or.inl hz
  | cons y ys ih =>
    intro z hz
    unfold insertOrd at hz
    by_cases hc : le x y
    · simp only [hc, if_true, List.mem_cons] at hz
      rcases hz with h | h | h
      · exact Or.inl h
      · exact Or.inr (by simp [h])
      · exact Or.inr (by simp [h])
    · simp only [hc, if_false, Bool.false_eq_true, List.mem_cons] at hz
      rcases hz with h | h
      · exact Or.inr (by simp [h])
      · rcases ih z h with h1 | h1
        · exact Or.inl h1
        · exact Or.inr (by simp [h1])

theorem pairwise_insertOrd {α : Type} (le : α → α → Bool)
    (htot : ∀ a b, le a b = true ∨ le b a = true)
    (htrans : ∀ a b c, le a b = true → le b c = true → le a c = true)
    (x : α) (l : List α) (h : l.Pairwise (fun a b => le a b = true)) :
    (insertOrd le x l).Pairwise (fun a b => le a b = true) := by
  induction l with
  | nil => simp [insertOrd]
  | cons y ys ih =>
    rcases List.pairwise_cons.mp h with ⟨hy, hys⟩
    unfold insertOrd
    by_cases hc : le x y
    · simp only [hc, if_true]
      refine List.pairwise_cons.mpr ⟨?_, h⟩
      intro z hz
      rcases List.mem_cons.mp hz with h1 | h1
      · rw [h1]; exact hc
      · exact htrans x y z hc (hy z h1)
    · simp only [hc, if_false, Bool.false_eq_true]
      refine List.pairwise_cons.mpr ⟨?_, ih hys⟩
      intro z hz
      rcases mem_insertOrd le x ys z hz with h1 | h1
      · rw [h1]
        rcases htot x y with h2 | h2
        · exact absurd h2 hc
        · exact h2
      · exact hy z h1

theorem pairwise_stableSort {α : Type} (le : α → α → Bool)
    (htot : ∀ a b, le a b = true ∨ le b a = true)
    (htrans : ∀ a b c, le a b = true → le b c = true → le a c = true)
    (l : List α) : (stableSort le l).Pairwise (fun a b => le a b = true) := by
  induction l with
  | nil => simp [stableSort]
  | cons x xs ih =>
    unfold stableSort
    exact pairwise_insertOrd le htot htrans x _ ih

theorem charsLt_trichotomy (xs : List Char) :
    ∀ ys, charsLt xs ys = true ∨ charsLt ys xs = true ∨ xs = ys := by
  induction xs with
  | nil =>
    intro ys
    cases ys with
    | nil => exact Or.inr (Or.inr rfl)
    | cons d ds => exact Or.inl rfl
  | cons c cs ih =>
    intro ys
    cases ys with
    | nil => exact Or.inr (Or.inl rfl)
    | cons d ds =>
      rcases lt_trichotomy c d with hlt | heq | hgt
      · exact Or.inl (by simp [charsLt, hlt])
      · subst heq
        have hirr : ¬ c < c := lt_irrefl c
        rcases ih ds with h1 | h2 | h3
        · exact Or.inl (by simp [charsLt, hirr, h1])
        · exact Or.inr (Or.inl (by simp [charsLt, hirr, h2]))
        · exact Or.inr (Or.inr (by rw [h3]))
      · exact Or.inr (Or.inl (by simp [charsLt, hgt]))

theorem charsLt_trans (xs : List Char) :
    ∀ ys zs, charsLt xs ys = true → charsLt ys zs = true → charsLt xs zs = true := by
  induction xs with
  | nil =>
    intro ys zs h1 h2
    cases ys with
    | nil => exact absurd h1 (by simp [charsLt])
    | cons d ds =>
      cases zs with
      | nil => exact absurd h2 (by simp [charsLt])
      | cons e es => simp [charsLt]
  | cons c cs ih =>
    intro ys zs h1 h2
    cases ys with
    | nil => exact absurd h1 (by simp [charsLt])
    | cons d ds =>
      cases zs with
      | nil => exact absurd h2 (by simp [charsLt])
      | cons e es =>
        simp only [charsLt] at h1 h2 ⊢
        by_cases hcd : c < d
        · by_cases hde : d < e
          · simp [lt_trans hcd hde]
          · by_cases hed : e < d
            · rw [if_neg hde, if_pos hed] at h2
              exact absurd h2 (by simp)
            · have hde2 : d = e := le_antisymm (not_lt.mp hed) (not_lt.mp hde)
              subst hde2
              simp [hcd]
        · by_cases hdc : d < c
          · rw [if_neg hcd, if_pos hdc] at h1
            exact absurd h1 (by simp)
          · have hcd2 : c = d := le_antisymm (not_lt.mp hdc) (not_lt.mp hcd)
            subst hcd2
            rw [if_neg hcd, if_neg hdc] at h1
            by_cases hde : c < e
            · simp [hde]
            · by_cases hed : e < c
              · rw [if_neg hde, if_pos hed] at h2
                exact absurd h2 (by simp)
              · have hde2 : c = e := le_antisymm (not_lt.mp hed) (not_lt.mp hde)
                subst hde2
                rw [if_neg hde]
                simp only [lt_irrefl, if_false]
                rw [if_neg (lt_irrefl c), if_neg (lt_irrefl c)] at h2
                exact ih ds es h1 h2

theorem string_ext_of_data {a b : String} (h : a.data = b.data) : a = b := by
  cases a
  cases b
  simp only at h
  rw [h]

theorem strLe_total (a b : String) : strLe a b = true ∨ strLe b a = true := by
  rcases charsLt_trichotomy a.data b.data with h | h | h
  · exact Or.inl (by simp [strLe, strLt, h])
  · exact Or.inr (by simp [strLe, strLt, h])
  · have : a = b := string_ext_of_data h
    subst this
    exact Or.inl (by simp [strLe])

theorem strLe_trans (a b c : String) (h1 : strLe a b = true) (h2 : strLe b c = true) :
    strLe a c = true := by
  simp only [strLe, Bool.or_eq_true, beq_iff_eq] at h1 h2 ⊢
  rcases h1 with h1 | h1
  · rcases h2 with h2 | h2
    · exact Or.inl (charsLt_trans a.data b.data c.data h1 h2)
    · subst h2; exact Or.inl h1
  · subst h1; exact h2

theorem sortByActorDesc_pairwise (l : List Op) :
    (OpSet.sortByActorDesc l).Pairwise (fun a b => strLe b.actor a.actor = true) := by
  unfold OpSet.sortByActorDesc
  rw [List.pairwise_reverse]
  exact pairwise_stableSort (fun a b : Op => strLe a.actor b.actor)
    (fun a b => strLe_total a.actor b.actor)
    (fun a b c hab hbc => strLe_trans a.actor b.actor c.actor hab hbc)
    l

theorem pairwise_desc_head_max (l : List Op)
    (h : l.Pairwise (fun a b => strLe b.actor a.actor = true)) :
    ∀ o ∈ l, ∀ hne : l ≠ [], strLe o.actor ((l.head hne).actor) = true := by
  cases l with
  | nil => intro o ho _; simp at ho
  | cons x xs =>
    intro o ho hne
    simp only [List.head_cons]
    rcases List.mem_cons.mp ho with h1 | h2
    · rw [h1]
      simp [strLe]
    · exact (List.pairwise_cons.mp h).1 o h2

/-- **C2**.  After a successful `applyAssign`, the stored field-op set at
the target `(obj, key)` is sorted by actor id descending; hence the first
element — the reported value — is the op whose actor id is
lexicographically greatest among the concurrent set, and `getConflicts`
reports exactly the remaining ops of the set as its conflicts. -/
theorem C2_field_winner_determinism (os os1 : OpSet) (op : Op) (topLevel : Bool)
    (diffs : List Diff) (h : os.applyAssign op topLevel = .ok (os1, diffs)) :
    (os1.getFieldOps op.obj op.key).Pairwise
      (fun a b => strLe b.actor a.actor = true) ∧
    (∀ o ∈ os1.getFieldOps op.obj op.key,
      ∀ hne : os1.getFieldOps op.obj op.key ≠ [],
      strLe o.actor (((os1.getFieldOps op.obj op.key).head hne).actor) = true) ∧
    OpSet.getConflicts (os1.getFieldOps op.obj op.key) =
      ((os1.getFieldOps op.obj op.key).drop 1).map
        (fun o => ⟨o.actor, o.value, o.action = Action.link⟩) := by
  obtain ⟨rem, hrem⟩ := applyAssign_fieldOps os os1 op topLevel diffs h
  refine ⟨?_, ?_, rfl⟩
  · rw [hrem]
    exact sortByActorDesc_pairwise rem
  · rw [hrem]
    exact pairwise_desc_head_max _ (sortByActorDesc_pairwise rem)

def w2opA : Op := ⟨Action.set, ROOT_ID, "x", 0, some (.num 1), none, "A", 1⟩

def w2opB : Op := ⟨Action.set, ROOT_ID, "x", 0, some (.num 2), none, "B", 1⟩

def w2os : OpSet :=
  { OpSet.init with
    states := [("A", [⟨⟨"A", 1, [], none, [w2opA]⟩, []⟩]),
      ("B", [⟨⟨"B", 1, [], none, [w2opB]⟩, []⟩])],
    byObject := [(ROOT_ID, { ObjRec.fresh with fields := [("x", [w2opA])] })],
    clock := [("A", 1), ("B", 1)] }

def w2os1 : OpSet :=
  { w2os with
    byObject := [(ROOT_ID, { ObjRec.fresh with fields := [("x", [w2opB, w2opA])] })] }

def w2diff : Diff :=
  { Diff.base .set ROOT_ID .map with
    key := some "x"
    value := some (.num 2)
    path := some (some [])
    conflicts := some [⟨"A", some (.num 1), false⟩] }

theorem C2_field_winner_witness :
    (OpSet.getFieldOps w2os1 w2opB.obj w2opB.key).Pairwise
      (fun a b => strLe b.actor a.actor = true) ∧
    (∀ o ∈ OpSet.getFieldOps w2os1 w2opB.obj w2opB.key,
      ∀ hne : OpSet.getFieldOps w2os1 w2opB.obj w2opB.key ≠ [],
      strLe o.actor (((OpSet.getFieldOps w2os1 w2opB.obj w2opB.key).head hne).actor) =
        true) ∧
    OpSet.getConflicts (OpSet.getFieldOps w2os1 w2opB.obj w2opB.key) =
      ((OpSet.getFieldOps w2os1 w2opB.obj w2opB.key).drop 1).map
        (fun o => ⟨o.actor, o.value, o.action = Action.link⟩) :=
  C2_field_winner_determinism w2os w2os1 w2opB false [w2diff] (by rfl)


/-! ### C4: causal queue drain -/

theorem applyMake_queue (os os1 : OpSet) (op : Op) (d : List Diff)
    (h : os.applyMake op = .ok (os1, d)) : os1.queue = os.queue := by
  unfold OpSet.applyMake at h
  by_cases hh : os.objHas op.obj
  · rw [if_pos hh] at h
    exact Except.noConfusion h
  · rw [if_neg hh] at h
    simp only [Except.ok.injEq, Prod.mk.injEq] at h
    rw [← h.1]

theorem applyInsert_queue (os os1 : OpSet) (op : Op) (d : List Diff)
    (h : os.applyInsert op = .ok (os1, d)) : os1.queue = os.queue := by
  unfold OpSet.applyInsert at h
  by_cases hh : os.objHas op.obj = false
  · rw [if_pos hh] at h
    exact Except.noConfusion h
  · rw [if_neg hh] at h
    cases hg : os.objGet op.obj with
    | none =>
      simp only [hg] at h
      exact Except.noConfusion h
    | some r =>
      simp only [hg] at h
      by_cases hi : (List.lookup (op.actor ++ ":" ++ toString op.elem) r.insertion).isSome
      · rw [if_pos hi] at h
        exact Except.noConfusion h
      · rw [if_neg hi] at h
        simp only [Except.ok.injEq, Prod.mk.injEq] at h
        rw [← h.1]

theorem patchList_queue (os os1 : OpSet) (o : String) (idx : Int) (e : String)
    (a : DiffAction) (ops : Option (List Op)) (d : List Diff)
    (h : os.patchList o idx e a ops = .ok (os1, d)) :
    os1.queue = os.queue := by
  unfold OpSet.patchList at h
  cases hg : os.objGet o with
  | none =>
    simp only [hg] at h
    exact Except.noConfusion h
  | some r =>
    simp only [hg] at h
    cases he : r.elemIds with
    | none =>
      simp only [he] at h
      exact Except.noConfusion h
    | some elemIds =>
      simp only [he] at h
      cases hp : os.getPath o os.pathFuel with
      | error er =>
        simp only [hp, except_bind_error] at h
        exact Except.noConfusion h
      | ok path =>
        simp only [hp, except_bind_ok] at h
        rcases a with _ | _ | _ | _ <;>
          rcases hfo : ops.bind (·.head?) with _ | f <;>
            simp only [hfo, Option.map_some', except_bind_error, except_bind_ok] at h <;>
            (try exact Except.noConfusion h)
        · cases hi : elemIds.insertIndex idx (some f.key)
            (some (if f.action = Action.link then EVal.linkObj ((linkTarget f).getD "")
              else EVal.plain f.value)) with
          | error er =>
            simp only [hi, except_bind_error] at h
            exact Except.noConfusion h
          | ok e1 =>
            simp only [hi, except_bind_ok, Except.ok.injEq, Prod.mk.injEq] at h
            rw [← h.1]
        · cases hi : elemIds.setValue (some f.key)
            (some (if f.action = Action.link then EVal.linkObj ((linkTarget f).getD "")
              else EVal.plain f.value)) with
          | error er =>
            simp only [hi, except_bind_error] at h
            exact Except.noConfusion h
          | ok e1 =>
            simp only [hi, except_bind_ok, Except.ok.injEq, Prod.mk.injEq] at h
            rw [← h.1]
        · cases hi : elemIds.removeIndex idx with
          | error er =>
            simp only [hi, except_bind_error] at h
            exact Except.noConfusion h
          | ok e1 =>
            simp only [hi, except_bind_ok, Except.ok.injEq, Prod.mk.injEq] at h
            rw [← h.1]
        · cases hi : elemIds.removeIndex idx with
          | error er =>
            simp only [hi, except_bind_error] at h
            exact Except.noConfusion h
          | ok e1 =>
            simp only [hi, except_bind_ok, Except.ok.injEq, Prod.mk.injEq] at h
            rw [← h.1]

theorem updateListElement_queue (os os1 : OpSet) (o e : String) (d : List Diff)
    (h : os.updateListElement o e = .ok (os1, d)) : os1.queue = os.queue := by
  unfold OpSet.updateListElement at h
  cases hel : (os.objGet o).bind (·.elemIds) with
  | none =>
    simp only [hel] at h
    exact Except.noConfusion h
  | some elemIds =>
    simp only [hel] at h
    cases hio : elemIds.indexOf (some e) with
    | error er =>
      simp only [hio, except_bind_error] at h
      exact Except.noConfusion h
    | ok index =>
      simp only [hio, except_bind_ok] at h
      by_cases hge : index ≥ 0
      · rw [if_pos hge] at h
        by_cases hops : os.getFieldOps o e = []
        · rw [if_pos hops] at h
          exact patchList_queue os os1 o index e .remove none d h
        · rw [if_neg hops] at h
          exact patchList_queue os os1 o index e .set _ d h
      · rw [if_neg hge] at h
        by_cases hops : os.getFieldOps o e = []
        · rw [if_pos hops] at h
          simp only [Except.ok.injEq, Prod.mk.injEq] at h
          rw [← h.1]
        · rw [if_neg hops] at h
          cases hfp : OpSet.findPrevLive os o elemIds e (os.pathFuel + 1) with
          | error er =>
            simp only [hfp, except_bind_error] at h
            exact Except.noConfusion h
          | ok idx2 =>
            simp only [hfp, except_bind_ok] at h
            exact patchList_queue os os1 o (idx2 + 1) e .insert _ d h

theorem captureUndo_queue (os : OpSet) (op : Op) (top : Bool) :
    (OpSet.captureUndo os op top).queue = os.queue := by
  unfold OpSet.captureUndo
  split <;> rfl

theorem removeOverwrittenLinks_queue (l : List Op) (os os1 : OpSet)
    (h : OpSet.removeOverwrittenLinks os l = .ok os1) :
    os1.queue = os.queue := by
  unfold OpSet.removeOverwrittenLinks at h
  generalize hf : l.filter (fun o => o.action = .link) = fl at h
  clear hf
  induction fl generalizing os with
  | nil =>
    simp only [List.foldlM] at h
    cases h
    rfl
  | cons x xs ih =>
    simp only [List.foldlM] at h
    cases hx : (linkTarget x).bind os.objGet with
    | none =>
      rw [hx] at h
      exact Except.noConfusion h
    | some r =>
      rw [hx] at h
      have step := ih _ h
      rw [step]

theorem addLinkInbound_queue (os os1 : OpSet) (op : Op)
    (h : OpSet.addLinkInbound os op = .ok os1) : os1.queue = os.queue := by
  unfold OpSet.addLinkInbound at h
  by_cases ha : op.action = Action.link
  · rw [if_pos ha] at h
    cases hlt : linkTarget op with
    | none =>
      rw [hlt] at h
      exact Except.noConfusion h
    | some tgt =>
      rw [hlt] at h
      simp only [Except.ok.injEq] at h
      rw [← h]
  · rw [if_neg ha] at h
    cases h
    rfl

theorem setFieldOps_queue (os os1 : OpSet) (o k : String) (l : List Op)
    (h : os.setFieldOps o k l = .ok os1) : os1.queue = os.queue := by
  unfold OpSet.setFieldOps at h
  cases hg : os.objGet o with
  | none =>
    rw [hg] at h
    exact Except.noConfusion h
  | some r =>
    rw [hg] at h
    simp only [Except.ok.injEq] at h
    rw [← h]

theorem applyAssign_queue (os os1 : OpSet) (op : Op) (top : Bool) (d : List Diff)
    (h : os.applyAssign op top = .ok (os1, d)) : os1.queue = os.queue := by
  unfold OpSet.applyAssign at h
  by_cases hhas : os.objHas op.obj = false
  · rw [if_pos hhas] at h
    exact Except.noConfusion h
  · rw [if_neg hhas] at h
    cases hp : OpSet.partitionConcurrent (OpSet.captureUndo os op top)
        ((OpSet.captureUndo os op top).getFieldOps op.obj op.key) op with
    | error er =>
      simp only [hp, except_bind_error] at h
      exact Except.noConfusion h
    | ok parts =>
      simp only [hp, except_bind_ok] at h
      cases hro : OpSet.removeOverwrittenLinks (OpSet.captureUndo os op top) parts.1 with
      | error er =>
        simp only [hro, except_bind_error] at h
        exact Except.noConfusion h
      | ok os3 =>
        simp only [hro, except_bind_ok] at h
        cases hal : OpSet.addLinkInbound os3 op with
        | error er =>
          simp only [hal, except_bind_error] at h
          exact Except.noConfusion h
        | ok os4 =>
          simp only [hal, except_bind_ok] at h
          cases hsf : os4.setFieldOps op.obj op.key (OpSet.sortByActorDesc
              (if op.action ≠ Action.del then parts.2 ++ [op] else parts.2)) with
          | error er =>
            simp only [hsf, except_bind_error] at h
            exact Except.noConfusion h
          | ok os5 =>
            simp only [hsf, except_bind_ok] at h
            have hq5 : os5.queue = os.queue := by
              rw [setFieldOps_queue os4 os5 op.obj op.key _ hsf,
                addLinkInbound_queue os3 os4 op hal,
                removeOverwrittenLinks_queue parts.1 _ os3 hro,
                captureUndo_queue os op top]
            by_cases h1 : op.obj = ROOT_ID ∨
                ((os.objGet op.obj).bind (·.init)).map (·.action) = some Action.makeMap
            · rw [if_pos h1] at h
              rw [updateMapKey_state os5 os1 op.obj .map op.key d h]
              exact hq5
            · rw [if_neg h1] at h
              by_cases h2 : ((os.objGet op.obj).bind (·.init)).map (·.action) =
                  some Action.makeTable
              · rw [if_pos h2] at h
                rw [updateMapKey_state os5 os1 op.obj .table op.key d h]
                exact hq5
              · rw [if_neg h2] at h
                by_cases h3 : ((os.objGet op.obj).bind (·.init)).map (·.action) =
                    some Action.makeList ∨
                  ((os.objGet op.obj).bind (·.init)).map (·.action) = some Action.makeText
                · rw [if_pos h3] at h
                  rw [updateListElement_queue os5 os1 op.obj op.key d h]
                  exact hq5
                · rw [if_neg h3] at h
                  exact Except.noConfusion h

theorem applyOpsStep_queue (acc : OpSet × List Diff × List String) (op : Op)
    (res : OpSet × List Diff × List String)
    (h : OpSet.applyOpsStep acc op = .ok res) : res.1.queue = acc.1.queue := by
  unfold OpSet.applyOpsStep at h
  rcases op with ⟨act, obj, key, elem, value, datatype, actor, seq⟩
  cases act <;> simp only at h
  case makeMap | makeTable | makeList | makeText =>
    all_goals
      cases hm : acc.1.applyMake ⟨_, obj, key, elem, value, datatype, actor, seq⟩ with
      | error er =>
        rw [hm] at h
        exact Except.noConfusion h
      | ok p =>
        rw [hm] at h
        simp only [except_bind_ok] at h
        cases h
        exact applyMake_queue acc.1 p.1 _ p.2 (by rw [hm])
  case ins =>
    cases hm : acc.1.applyInsert ⟨.ins, obj, key, elem, value, datatype, actor, seq⟩ with
    | error er =>
      rw [hm] at h
      exact Except.noConfusion h
    | ok p =>
      rw [hm] at h
      simp only [except_bind_ok] at h
      cases h
      exact applyInsert_queue acc.1 p.1 _ p.2 (by rw [hm])
  case set | del | link =>
    all_goals
      cases hm : acc.1.applyAssign ⟨_, obj, key, elem, value, datatype, actor, seq⟩
          (¬ obj ∈ acc.2.2) with
      | error er =>
        rw [hm] at h
        exact Except.noConfusion h
      | ok p =>
        rw [hm] at h
        simp only [except_bind_ok] at h
        cases h
        exact applyAssign_queue acc.1 p.1 _ _ p.2 (by rw [hm])

theorem applyOps_fold_queue (ops : List Op) :
    ∀ (acc res : OpSet × List Diff × List String),
      ops.foldlM OpSet.applyOpsStep acc = .ok res → res.1.queue = acc.1.queue := by
  induction ops with
  | nil =>
    intro acc res h
    simp only [List.foldlM] at h
    cases h
    rfl
  | cons op rest ih =>
    intro acc res h
    simp only [List.foldlM] at h
    cases hs : OpSet.applyOpsStep acc op with
    | error er =>
      rw [hs] at h
      exact Except.noConfusion h
    | ok acc1 =>
      rw [hs] at h
      rw [ih acc1 res h, applyOpsStep_queue acc op acc1 hs]

theorem applyOps_queue (os os1 : OpSet) (ops : List Op) (d : List Diff)
    (h : os.applyOps ops = .ok (os1, d)) : os1.queue = os.queue := by
  unfold OpSet.applyOps at h
  cases hf : ops.foldlM OpSet.applyOpsStep (os, [], []) with
  | error er =>
    simp only [hf, except_bind_error] at h
    exact Except.noConfusion h
  | ok st =>
    simp only [hf, except_bind_ok, Except.ok.injEq, Prod.mk.injEq] at h
    rw [← h.1]
    exact applyOps_fold_queue ops (os, [], []) st hf

theorem applyChange_queue (os os1 : OpSet) (c : Change) (d : List Diff)
    (h : os.applyChange c = .ok (os1, d)) : os1.queue = os.queue := by
  unfold OpSet.applyChange at h
  by_cases hle : c.seq ≤ ((List.lookup c.actor os.states).getD []).length
  · rw [if_pos hle] at h
    cases hget : (if c.seq = 0 then none
        else ((List.lookup c.actor os.states).getD []).get? (c.seq - 1)) with
    | none =>
      simp only [hget] at h
      exact Except.noConfusion h
    | some entry =>
      simp only [hget] at h
      by_cases heq : changeBEq entry.change c = true
      · rw [if_pos heq] at h
        simp only [Except.ok.injEq, Prod.mk.injEq] at h
        rw [← h.1]
      · rw [if_neg heq] at h
        exact Except.noConfusion h
  · rw [if_neg hle] at h
    cases htd : os.transitiveDeps (assocSet c.deps c.actor (c.seq - 1)) with
    | error er =>
      simp only [htd, except_bind_error] at h
      exact Except.noConfusion h
    | ok allDeps =>
      simp only [htd, except_bind_ok] at h
      cases hao : OpSet.applyOps { os with states := (assocSet os.states c.actor (((List.lookup c.actor os.states).getD []) ++ [({ change := c, allDeps := allDeps } : StateEntry)])) } (c.ops.map (fun o => { o with actor := c.actor, seq := c.seq })) with
      | error er =>
        simp only [hao, except_bind_error] at h
        exact Except.noConfusion h
      | ok p =>
        simp only [hao, except_bind_ok, Except.ok.injEq, Prod.mk.injEq] at h
        have hq := applyOps_queue _ p.1 _ p.2 (by rw [hao])
        rw [← h.1]
        simp only
        rw [hq]


theorem drain_fold_spec (q : List Change) :
    ∀ (cur : OpSet) (retained : List Change) (diffs : List Diff)
      (res : OpSet × List Change × List Diff),
      q.foldlM OpSet.drainStep (cur, retained, diffs) = .ok res →
      res.1.queue = cur.queue ∧
      (∃ r2, res.2.1 = retained ++ r2 ∧ r2.Sublist q) ∧
      (res.2.1.length = retained.length + q.length →
        res.1 = cur ∧ res.2.2 = diffs ∧ ∀ c ∈ q, cur.causallyReady c = false) := by
  induction q with
  | nil =>
    intro cur retained diffs res h
    simp only [List.foldlM] at h
    cases h
    refine ⟨rfl, ⟨[], by simp, List.Sublist.refl _⟩, ?_⟩
    intro _
    exact ⟨rfl, rfl, by simp⟩
  | cons ch q' ih =>
    intro cur retained diffs res h
    simp only [List.foldlM] at h
    by_cases hr : cur.causallyReady ch
    · cases happ : cur.applyChange ch with
      | error er =>
        rw [show OpSet.drainStep (cur, retained, diffs) ch = .error er from by
          unfold OpSet.drainStep
          simp [hr, happ, except_bind_error]] at h
        rw [except_bind_error] at h
        exact Except.noConfusion h
      | ok p =>
        rw [show OpSet.drainStep (cur, retained, diffs) ch =
            .ok (p.1, retained, diffs ++ p.2) from by
          unfold OpSet.drainStep
          simp [hr, happ, except_bind_ok]] at h
        rw [except_bind_ok] at h
        obtain ⟨hqz, ⟨r2, hr2, hsub⟩, hlen⟩ := ih p.1 retained (diffs ++ p.2) res h
        refine ⟨by rw [hqz, applyChange_queue cur p.1 ch p.2 happ],
          ⟨r2, hr2, hsub.trans (List.sublist_cons_self ch q')⟩, ?_⟩
        intro hl
        exfalso
        have hr2le : r2.length ≤ q'.length := hsub.length_le
        rw [hr2] at hl
        simp only [List.length_append, List.length_cons] at hl
        omega
    · have hrf : cur.causallyReady ch = false := by
        revert hr
        cases cur.causallyReady ch <;> simp
      rw [show OpSet.drainStep (cur, retained, diffs) ch =
          .ok (cur, retained ++ [ch], diffs) from by
        unfold OpSet.drainStep
        simp [hrf]] at h
      rw [except_bind_ok] at h
      obtain ⟨hq1, ⟨r2, hr2, hsub⟩, hlen⟩ := ih cur (retained ++ [ch]) diffs res h
      refine ⟨hq1, ⟨ch :: r2, by simp [hr2], hsub.cons₂ ch⟩, ?_⟩
      intro hl
      have hlen2 : res.2.1.length = (retained ++ [ch]).length + q'.length := by
        simp only [List.length_append, List.length_cons, List.length_nil] at hl ⊢
        omega
      obtain ⟨hcur, hdiffs, hall⟩ := hlen hlen2
      refine ⟨hcur, hdiffs, ?_⟩
      intro c hc
      rcases List.mem_cons.mp hc with h1 | h1
      · rw [h1]
        exact hrf
      · exact hall c h1

theorem drainPass_spec (os os2 : OpSet) (retained : List Change) (d : List Diff)
    (h : OpSet.drainPass os = .ok (os2, retained, d)) :
    os2.queue = os.queue ∧ retained.Sublist os.queue ∧
    (retained.length = os.queue.length →
      os2 = os ∧ d = [] ∧ ∀ c ∈ os.queue, os.causallyReady c = false) := by
  unfold OpSet.drainPass at h
  obtain ⟨hq, ⟨r2, hr2, hsub⟩, hlen⟩ :=
    drain_fold_spec os.queue os [] [] (os2, retained, d) h
  simp only [List.nil_append] at hr2
  refine ⟨hq, by rw [hr2]; exact hsub, ?_⟩
  intro hc
  exact hlen (by simpa using hc)

theorem applyQueuedOpsF_total (fuel : Nat) :
    ∀ (os : OpSet) (dacc : List Diff), os.queue.length < fuel →
      OpSet.applyQueuedOpsF fuel os dacc ≠ none := by
  induction fuel with
  | zero =>
    intro os dacc h
    omega
  | succ f ih =>
    intro os dacc hlt
    unfold OpSet.applyQueuedOpsF
    cases hdp : OpSet.drainPass os with
    | error e => simp
    | ok t =>
      obtain ⟨os1, retained, d⟩ := t
      obtain ⟨hq, hsub, hlen⟩ := drainPass_spec os os1 retained d hdp
      by_cases hc : retained.length = os1.queue.length
      · simp [hc]
      · simp only [hc, if_false]
        apply ih
        show retained.length < f
        have hle := hsub.length_le
        rw [hq] at hc
        omega

theorem applyQueuedOpsF_post (fuel : Nat) :
    ∀ (os : OpSet) (dacc : List Diff) (os1 : OpSet) (diffs : List Diff),
      OpSet.applyQueuedOpsF fuel os dacc = some (.ok (os1, diffs)) →
      os1.queue.Sublist os.queue ∧ ∀ c ∈ os1.queue, os1.causallyReady c = false := by
  induction fuel with
  | zero =>
    intro os dacc os1 diffs h
    exact Option.noConfusion h
  | succ f ih =>
    intro os dacc os1 diffs h
    unfold OpSet.applyQueuedOpsF at h
    cases hdp : OpSet.drainPass os with
    | error e =>
      simp only [hdp] at h
      injection h with h2
      exact Except.noConfusion h2
    | ok t =>
      obtain ⟨os2, retained, d⟩ := t
      simp only [hdp] at h
      obtain ⟨hq, hsub, hlen⟩ := drainPass_spec os os2 retained d hdp
      by_cases hc : retained.length = os2.queue.length
      · rw [if_pos hc] at h
        injection h with h2
        have h5 : os2 = os1 := congrArg Prod.fst (Except.ok.inj h2)
        rw [hq] at hc
        obtain ⟨hos, hd, hall⟩ := hlen hc
        constructor
        · rw [← h5, hos]
        · intro c hcm
          rw [← h5, hos] at hcm ⊢
          exact hall c hcm
      · rw [if_neg hc] at h
        obtain ⟨hsub2, hall⟩ := ih _ _ _ _ h
        constructor
        · exact List.Sublist.trans hsub2 hsub
        · exact hall

theorem applyQueuedOpsF_noprogress (os : OpSet) (f : Nat)
    (hall : ∀ c ∈ os.queue, os.causallyReady c = false) :
    OpSet.applyQueuedOpsF (f + 1) os [] = some (.ok (os, [])) := by
  have hfold : ∀ q : List Change, (∀ c ∈ q, os.causallyReady c = false) →
      ∀ (r : List Change) (d : List Diff),
      q.foldlM OpSet.drainStep (os, r, d) = .ok (os, r ++ q, d) := by
    intro q
    induction q with
    | nil =>
      intro _ r d
      simp only [List.foldlM, List.append_nil]
      rfl
    | cons ch q' ihq =>
      intro hq r d
      simp only [List.foldlM]
      rw [show OpSet.drainStep (os, r, d) ch = .ok (os, r ++ [ch], d) from by
        unfold OpSet.drainStep
        simp [hq ch (by simp)]]
      rw [except_bind_ok]
      rw [ihq (fun c hc => hq c (by simp [hc])) (r ++ [ch]) d]
      simp
  have hdp : OpSet.drainPass os = .ok (os, os.queue, []) := by
    unfold OpSet.drainPass
    simpa using hfold os.queue hall [] []
  unfold OpSet.applyQueuedOpsF
  simp only [hdp]
  simp

/-- **C4**.  The `applyQueuedOps` drain loop terminates for every input
within `|queue| + 1` passes; on success the retained queue is a
subsequence of the original queue and consists only of changes that are
not causally ready against the resulting state; and when no queued change
is ready (a full pass that applies nothing), the loop stops immediately,
returning the state unchanged with no diffs. -/
theorem C4_causal_queue_drain (os : OpSet) :
    OpSet.applyQueuedOpsF (os.queue.length + 1) os [] ≠ none ∧
    (∀ (os1 : OpSet) (diffs : List Diff), os.applyQueuedOps = .ok (os1, diffs) →
      os1.queue.Sublist os.queue ∧ ∀ c ∈ os1.queue, os1.causallyReady c = false) ∧
    ((∀ c ∈ os.queue, os.causallyReady c = false) →
      os.applyQueuedOps = .ok (os, [])) := by
  refine ⟨applyQueuedOpsF_total _ os [] (by omega), ?_, ?_⟩
  · intro os1 diffs h
    unfold OpSet.applyQueuedOps at h
    cases hF : OpSet.applyQueuedOpsF (os.queue.length + 1) os [] with
    | none =>
      rw [hF] at h
      simp only [Option.getD_none] at h
      exact Except.noConfusion h
    | some r =>
      rw [hF] at h
      simp only [Option.getD_some] at h
      exact applyQueuedOpsF_post _ os [] os1 diffs (by rw [hF, h])
  · intro hall
    unfold OpSet.applyQueuedOps
    rw [applyQueuedOpsF_noprogress os _ hall]
    rfl

def ex4c : Change := ⟨"A", 2, [], none, []⟩

def ex4os : OpSet := { OpSet.init with queue := [ex4c] }

theorem C4_causal_queue_drain_witness :
    OpSet.applyQueuedOpsF (ex4os.queue.length + 1) ex4os [] ≠ none ∧
    ex4os.applyQueuedOps = .ok (ex4os, []) :=
  ⟨(C4_causal_queue_drain ex4os).1,
   (C4_causal_queue_drain ex4os).2.2 (by decide)⟩


/-! ### C5: `getMissingChanges` -/

def ex5chA : Change := ⟨"A", 1, [], none, []⟩

def ex5chB : Change := ⟨"B", 1, [("A", 1)], none, []⟩

def ex5os : OpSet :=
  { OpSet.init with
    states := [("A", [⟨ex5chA, []⟩]), ("B", [⟨ex5chB, [("A", 1)]⟩])],
    clock := [("A", 1), ("B", 1)] }

def ex5have : List (String × Nat) := [("B", 1)]

/-- **C5, counterexample.**  With actor `A` holding a stored change of
`seq = 1 > haveClock[A] = 0`, `getMissingChanges` nevertheless returns
the empty list, because it filters by the TRANSITIVE closure of
`haveClock` (here `B:1` transitively covers `A:1`), refuting "returns
exactly the stored changes whose seq is greater than haveClock[actor]". -/
theorem C5_counterexample :
    clockGet ex5have "A" < ex5chA.seq ∧
    ((List.lookup "A" ex5os.states).getD []).map (·.change) = [ex5chA] ∧
    OpSet.getMissingChanges ex5os ex5have = .ok [] := by decide

theorem seq_filter_drop (sts : List StateEntry) :
    ∀ (base n : Nat), (∀ i e, sts.get? i = some e → e.change.seq = base + i + 1) →
    (sts.map (·.change)).filter (fun c => decide (n < c.seq)) =
      (sts.drop (n - base)).map (·.change) := by
  induction sts with
  | nil =>
    intro base n _
    simp
  | cons e rest ih =>
    intro base n hseq
    have he : e.change.seq = base + 1 := by
      have := hseq 0 e rfl
      omega
    have hrest : ∀ i e1, rest.get? i = some e1 → e1.change.seq = (base + 1) + i + 1 := by
      intro i e1 hg
      have := hseq (i + 1) e1 (by simpa using hg)
      omega
    by_cases hn : n < base + 1
    · have h0 : n - base = 0 := by omega
      rw [h0]
      simp only [List.map_cons, List.drop_zero]
      rw [List.filter_cons_of_pos (by simp [he]; omega)]
      rw [ih (base + 1) n hrest]
      have h1 : n - (base + 1) = 0 := by omega
      rw [h1]
      simp
    · rw [List.map_cons, List.filter_cons_of_neg (by simp [he]; omega)]
      rw [ih (base + 1) n hrest]
      have h1 : n - base = (n - (base + 1)) + 1 := by omega
      rw [h1]
      simp


theorem seqs_pairwise (sts : List StateEntry) :
    ∀ base, (∀ i e, sts.get? i = some e → e.change.seq = base + i + 1) →
    ((sts.map (·.change)).map (·.seq)).Pairwise (· < ·) := by
  induction sts with
  | nil =>
    intro base _
    simp
  | cons e rest ih =>
    intro base hseq
    have he : e.change.seq = base + 1 := by
      have := hseq 0 e rfl
      omega
    have hrest : ∀ i e1, rest.get? i = some e1 → e1.change.seq = (base + 1) + i + 1 := by
      intro i e1 hg
      have := hseq (i + 1) e1 (by simpa using hg)
      omega
    simp only [List.map_cons]
    refine List.pairwise_cons.mpr ⟨?_, ih (base + 1) hrest⟩
    intro s hs
    simp only [List.mem_map] at hs
    obtain ⟨c, ⟨e1, he1, hc⟩, hsq⟩ := hs
    obtain ⟨i, hi⟩ := List.get?_of_mem he1
    have h2 := hrest i e1 hi
    rw [← hsq, ← hc, h2, he]
    omega

theorem flatten_filter_actor (allDeps : List (String × Nat)) :
    ∀ (states : List (String × List StateEntry)),
      (states.map Prod.fst).Nodup →
      (∀ a sts, (a, sts) ∈ states → ∀ e ∈ sts, e.change.actor = a) →
      ∀ a sts, (a, sts) ∈ states →
      ((states.map (fun p => (p.2.drop (clockGet allDeps p.1)).map (·.change))).flatten).filter
        (fun c => c.actor == a) = (sts.drop (clockGet allDeps a)).map (·.change) := by
  intro states
  induction states with
  | nil =>
    intro _ _ a sts h
    simp at h
  | cons p rest ih =>
    intro hN hact a sts hmem
    obtain ⟨a0, sts0⟩ := p
    have hN1 : (a0 :: rest.map Prod.fst).Nodup := by simpa using hN
    have hN2 := List.nodup_cons.mp hN1
    simp only [List.map_cons, List.flatten_cons, List.filter_append]
    rcases List.mem_cons.mp hmem with hhead | htail
    · obtain ⟨ha, hsts⟩ := Prod.mk.inj hhead
      subst ha
      subst hsts
      have hgrp : ((sts.drop (clockGet allDeps a)).map (·.change)).filter
          (fun c => c.actor == a) = (sts.drop (clockGet allDeps a)).map (·.change) := by
        rw [List.filter_eq_self]
        intro c hcm
        simp only [List.mem_map] at hcm
        obtain ⟨e, he, hce⟩ := hcm
        have he2 : e ∈ sts := List.drop_subset _ _ he
        have := hact a sts (List.mem_cons_self _ _) e he2
        simp [← hce, this]
      have hrest0 : ((rest.map (fun p =>
          (p.2.drop (clockGet allDeps p.1)).map (·.change))).flatten).filter
          (fun c => c.actor == a) = [] := by
        rw [List.filter_eq_nil]
        intro c hcm
        simp only [List.mem_flatten, List.mem_map] at hcm
        obtain ⟨l, ⟨q, hq, hl⟩, hcl⟩ := hcm
        rw [← hl] at hcl
        simp only [List.mem_map] at hcl
        obtain ⟨e, he, hce⟩ := hcl
        have he2 : e ∈ q.2 := List.drop_subset _ _ he
        have hqa := hact q.1 q.2 (List.mem_cons_of_mem _ (by rwa [Prod.mk.eta])) e he2
        have hkey : q.1 ∈ rest.map Prod.fst := List.mem_map_of_mem Prod.fst hq
        have hne : q.1 ≠ a := fun hc => hN2.1 (hc ▸ hkey)
        simp [← hce, hqa, hne]
      rw [hgrp, hrest0, List.append_nil]
    · have hka : a ∈ rest.map Prod.fst := List.mem_map_of_mem Prod.fst htail
      have hne : a0 ≠ a := fun hc => hN2.1 (hc ▸ hka)
      have hgrp0 : ((sts0.drop (clockGet allDeps a0)).map (·.change)).filter
          (fun c => c.actor == a) = [] := by
        rw [List.filter_eq_nil]
        intro c hcm
        simp only [List.mem_map] at hcm
        obtain ⟨e, he, hce⟩ := hcm
        have he2 : e ∈ sts0 := List.drop_subset _ _ he
        have := hact a0 sts0 (List.mem_cons_self _ _) e he2
        simp [← hce, this]
        exact fun hc => hne hc
      rw [hgrp0, List.nil_append]
      exact ih hN2.2 (fun a1 sts1 hm => hact a1 sts1 (List.mem_cons_of_mem _ hm)) a sts htail

/-- **C5, amended.**  `getMissingChanges(haveClock)` returns exactly the
stored changes whose `seq` exceeds the TRANSITIVE closure of `haveClock`
at their actor (`transitiveDeps`), not `haveClock` itself; within each
actor the returned changes are ordered by ascending `seq`, and the result
is grouped per actor in the order of the states map. -/
theorem C5_missing_changes_transitive (os : OpSet)
    (haveClock allDeps : List (String × Nat)) (res : List Change)
    (h0 : os.transitiveDeps haveClock = .ok allDeps)
    (h : os.getMissingChanges haveClock = .ok res)
    (hN : (os.states.map Prod.fst).Nodup)
    (hidx : ∀ a sts, (a, sts) ∈ os.states → ∀ i e, sts.get? i = some e →
      e.change.seq = i + 1 ∧ e.change.actor = a) :
    (∀ a sts, (a, sts) ∈ os.states →
      res.filter (fun c => c.actor == a) =
        (sts.map (·.change)).filter (fun c => decide (clockGet allDeps a < c.seq)) ∧
      ((res.filter (fun c => c.actor == a)).map (·.seq)).Pairwise (· < ·)) ∧
    (∀ c ∈ res, ∃ p ∈ os.states, c.actor = p.1) := by
  unfold OpSet.getMissingChanges at h
  simp only [h0, except_bind_ok, Except.ok.injEq] at h
  subst h
  have hact : ∀ a1 sts1, (a1, sts1) ∈ os.states → ∀ e ∈ sts1, e.change.actor = a1 := by
    intro a1 sts1 hm e he
    obtain ⟨i, hi⟩ := List.get?_of_mem he
    exact (hidx a1 sts1 hm i e hi).2
  constructor
  · intro a sts hmem
    have hfa := flatten_filter_actor allDeps os.states hN hact a sts hmem
    have hseq : ∀ i e, sts.get? i = some e → e.change.seq = 0 + i + 1 := by
      intro i e hi
      have := (hidx a sts hmem i e hi).1
      omega
    have hfd := seq_filter_drop sts 0 (clockGet allDeps a) hseq
    constructor
    · rw [hfa, hfd]
      simp
    · rw [hfa]
      apply seqs_pairwise (sts.drop (clockGet allDeps a)) (clockGet allDeps a)
      intro i e hi
      rw [List.get?_drop] at hi
      have := (hidx a sts hmem _ e hi).1
      omega
  · intro c hc
    simp only [List.mem_flatten, List.mem_map] at hc
    obtain ⟨l, ⟨p, hp, hl⟩, hcl⟩ := hc
    refine ⟨p, hp, ?_⟩
    rw [← hl] at hcl
    simp only [List.mem_map] at hcl
    obtain ⟨e, he, hce⟩ := hcl
    have he2 : e ∈ p.2 := List.drop_subset _ _ he
    have := hact p.1 p.2 (by rwa [Prod.mk.eta]) e he2
    rw [← hce, this]


theorem C5_missing_changes_witness :
    ([] : List Change).filter (fun c => c.actor == "A") =
      (([⟨ex5chA, []⟩] : List StateEntry).map (·.change)).filter
        (fun c => decide (clockGet [("A", 1), ("B", 1)] "A" < c.seq)) ∧
    ((([] : List Change).filter (fun c => c.actor == "A")).map (·.seq)).Pairwise (· < ·) :=
  (C5_missing_changes_transitive ex5os ex5have [("A", 1), ("B", 1)] []
    (by decide) (by decide) (by decide)
    (by
      intro a sts hmem i e hi
      have hmem2 : (a, sts) ∈
          [("A", [(⟨ex5chA, []⟩ : StateEntry)]), ("B", [⟨ex5chB, [("A", 1)]⟩])] := hmem
      rcases List.mem_cons.mp hmem2 with h1 | h2
      · obtain ⟨ha, hsts⟩ := Prod.mk.inj h1
        subst ha
        subst hsts
        cases i with
        | zero => cases hi; exact ⟨rfl, rfl⟩
        | succ n => exact Option.noConfusion hi
      · rcases List.mem_cons.mp h2 with h3 | h4
        · obtain ⟨ha, hsts⟩ := Prod.mk.inj h3
          subst ha
          subst hsts
          cases i with
          | zero => cases hi; exact ⟨rfl, rfl⟩
          | succ n => exact Option.noConfusion hi
        · exact absurd h4 (by simp))).1 "A" [⟨ex5chA, []⟩] (by decide)


/-! ### C6: skip list index/key correspondence

A skip list `s` *represents* a sequence `seq` of keys with level
assignment `lv` (position 0 is the head, position `i + 1` holds
`seq[i]`) when every stored node's `level`, `nextKey`/`nextCount` and
`prevKey`/`prevCount` fields describe, at each of its levels `ℓ`, the
nearest position in the indicated direction whose level exceeds `ℓ`
(distance counted in positions; a missing next node stands for the list
end at distance `length + 1 - p`).  These are the fields `keyOf` and
`indexOf` traverse. -/

def keyAt (seq : List String) : Nat → Option String
  | 0 => none
  | p + 1 => seq.get? p

/-- First position after `p` (up to `n`) whose level exceeds `ℓ`. -/
def nextAbove (lv : List Nat) (n ℓ p : Nat) : Option Nat :=
  (List.range' (p + 1) (n - p)).find? (fun q => decide (ℓ < lv.getD q 0))

/-- Last position before `p` whose level exceeds `ℓ`. -/
def prevAbove (lv : List Nat) (ℓ p : Nat) : Option Nat :=
  (List.range p).reverse.find? (fun q => decide (ℓ < lv.getD q 0))

/-- The node stored at position `p` matches the sequence/level data
(the dummy node only serves as a `getD` default; well-formedness
requires the lookup to succeed). -/
def WFnodeAt {V : Type} (seq : List String) (lv : List Nat) (n p : Nat)
    (nd : SLNode V) : Prop :=
  nd.key = keyAt seq p ∧
  nd.level = lv.getD p 0 ∧
  ∀ ℓ, ℓ < nd.level →
    nd.nextKey.getD ℓ none = (nextAbove lv n ℓ p).elim none (keyAt seq) ∧
    nd.nextCount.getD ℓ 0 = (nextAbove lv n ℓ p).elim (n + 1 - p) (fun q => q - p) ∧
    (1 ≤ p →
      (prevAbove lv ℓ p).isSome = true ∧
      nd.prevKey.getD ℓ none = (prevAbove lv ℓ p).elim none (keyAt seq) ∧
      nd.prevCount.getD ℓ 0 = (prevAbove lv ℓ p).elim 0 (fun q => p - q))

def dummyNode (V : Type) : SLNode V := ⟨none, none, 0, [], [], [], []⟩

def WFnode {V : Type} (s : SkipList V) (seq : List String) (lv : List Nat)
    (p : Nat) : Prop :=
  (s.nodesGet (keyAt seq p)).isSome = true ∧
  WFnodeAt seq lv seq.length p ((s.nodesGet (keyAt seq p)).getD (dummyNode V))

/-- Well-formedness of a skip list representing `seq` with levels `lv`. -/
def WF {V : Type} (s : SkipList V) (seq : List String) (lv : List Nat) : Prop :=
  s.length = seq.length ∧
  s.nodes.length = seq.length + 1 ∧
  lv.length = seq.length + 1 ∧
  seq.Nodup ∧
  (∀ x ∈ seq, x ≠ "") ∧
  (∀ p, p < seq.length + 1 → 1 ≤ lv.getD p 0 ∧ lv.getD p 0 ≤ lv.getD 0 0) ∧
  (∀ pr ∈ s.nodes, pr.1 ∈ (List.range (seq.length + 1)).map (keyAt seq)) ∧
  (∀ p, p < seq.length + 1 → WFnode s seq lv p)

instance {V : Type} (seq : List String) (lv : List Nat) (n p : Nat)
    (nd : SLNode V) : Decidable (WFnodeAt seq lv n p nd) := by
  unfold WFnodeAt
  infer_instance

instance {V : Type} (s : SkipList V) (seq : List String)
    (lv : List Nat) (p : Nat) : Decidable (WFnode s seq lv p) := by
  unfold WFnode
  infer_instance

instance {V : Type} (s : SkipList V) (seq : List String)
    (lv : List Nat) : Decidable (WF s seq lv) := by
  unfold WF
  infer_instance

def ex6sl : SkipList Nat :=
  match (do
    let s0 := SkipList.empty Nat [1, 3, 2, 1]
    let s1 ← s0.insertIndex 0 (some "a") (some 10)
    let s2 ← s1.insertIndex 1 (some "b") (some 20)
    let s3 ← s2.insertIndex 2 (some "c") (some 30)
    let s4 ← s3.insertIndex 1 (some "d") (some 40)
    pure s4 : Except Err (SkipList Nat)) with
  | .ok s => s
  | .error _ => SkipList.empty Nat []

def ex6seq : List String := ["a", "d", "b", "c"]

def ex6lv : List Nat := [3, 1, 1, 3, 2]

theorem ex6_wf : WF ex6sl ex6seq ex6lv := by decide


theorem nextAbove_some {lv : List Nat} {n ℓ p q : Nat}
    (h : nextAbove lv n ℓ p = some q) :
    p < q ∧ q ≤ n ∧ ℓ < lv.getD q 0 := by
  unfold nextAbove at h
  have hm := List.mem_of_find?_eq_some h
  have hp := List.find?_some h
  rw [List.mem_range'_1] at hm
  refine ⟨by omega, by omega, by simpa using hp⟩

theorem nextAbove_base {lv : List Nat} {n p : Nat} (hp : p < n)
    (hl : 1 ≤ lv.getD (p + 1) 0) : nextAbove lv n 0 p = some (p + 1) := by
  unfold nextAbove
  have hnp : n - p = (n - p - 1) + 1 := by omega
  rw [hnp, List.range'_succ, List.find?_cons]
  have hd : (decide (0 < lv.getD (p + 1) 0)) = true := decide_eq_true (by omega)
  simp only [hd]

theorem prevAbove_some {lv : List Nat} {ℓ p q : Nat}
    (h : prevAbove lv ℓ p = some q) :
    q < p ∧ ℓ < lv.getD q 0 := by
  unfold prevAbove at h
  have hm := List.mem_of_find?_eq_some h
  have hp := List.find?_some h
  rw [List.mem_reverse, List.mem_range] at hm
  exact ⟨hm, by simpa using hp⟩

theorem keyOfLoop_eq {V : Type} (s : SkipList V) (target : Nat) (node : SLNode V)
    (level count f : Nat) :
    SkipList.keyOfLoop s target node level count (f + 1) =
      (if count = target + 1 then .ok node.key
       else if count + node.nextCount.getD level 0 > target + 1 then
         SkipList.keyOfLoop s target node (level - 1) count f
       else
         match s.nodesGet (node.nextKey.getD level none) with
         | none => .error .typeError
         | some nd =>
           SkipList.keyOfLoop s target nd level (count + node.nextCount.getD level 0) f) := rfl

theorem indexOfLoop_eq {V : Type} (s : SkipList V) (nd? : Option (SLNode V))
    (c f : Nat) :
    SkipList.indexOfLoop s nd? c (f + 1) =
      (match nd? with
       | none => .ok ((c : Int) - 1)
       | some nd =>
         if truthy nd.key = false then .ok ((c : Int) - 1)
         else SkipList.indexOfLoop s (s.nodesGet (nd.prevKey.getD (nd.level - 1) none))
           (c + nd.prevCount.getD (nd.level - 1) 0) f) := rfl

theorem nodesHas_eq_isSome {V : Type} (s : SkipList V) (k : Option String) :
    s.nodesHas k = (s.nodesGet k).isSome := by
  unfold SkipList.nodesHas SkipList.nodesGet
  cases s.nodes.find? (fun p => p.1 = k) <;> rfl


theorem keyOfLoop_spec {V : Type} (s : SkipList V) (seq : List String) (lv : List Nat)
    (hwf : WF s seq lv) (target : Nat) (htn : target < seq.length) :
    ∀ fuel p level nd, p ≤ target + 1 → level < lv.getD p 0 →
      s.nodesGet (keyAt seq p) = some nd →
      (target + 1 - p) + level < fuel →
      SkipList.keyOfLoop s target nd level p fuel = .ok (keyAt seq (target + 1)) := by
  obtain ⟨hlen, hnlen, hlvlen, hndp, hnb, hlv, hkeys, hwfn⟩ := hwf
  intro fuel
  induction fuel with
  | zero =>
    intro p level nd _ _ _ hf
    omega
  | succ f ih =>
    intro p level nd hp hlev hget hf
    obtain ⟨hsome, hat⟩ := hwfn p (by omega)
    rw [hget] at hat
    simp only [Option.getD_some] at hat
    obtain ⟨hkey, hlevel, hfields⟩ := hat
    rw [keyOfLoop_eq]
    by_cases hpt : p = target + 1
    · subst hpt
      rw [if_pos rfl, hkey]
    · rw [if_neg hpt]
      have hple : p ≤ target := by omega
      obtain ⟨hnk, hnc, _⟩ := hfields level (by rw [hlevel]; exact hlev)
      cases hq : nextAbove lv seq.length level p with
      | some q =>
        rw [hq] at hnk hnc
        simp only [Option.elim] at hnk hnc
        obtain ⟨hq1, hq2, hq3⟩ := nextAbove_some hq
        by_cases hqt : target + 1 < q
        · have hlev1 : 1 ≤ level := by
            by_contra h0
            have h00 : level = 0 := by omega
            subst h00
            have hb := @nextAbove_base lv seq.length p
              (by omega) (hlv (p + 1) (by omega)).1
            rw [hb] at hq
            have := Option.some.inj hq
            omega
          rw [if_pos (by rw [hnc]; omega)]
          exact ih p (level - 1) nd hp (by omega) hget (by omega)
        · rw [if_neg (by rw [hnc]; omega)]
          obtain ⟨hsq, hatq⟩ := hwfn q (by omega)
          obtain ⟨ndq, hndq⟩ := Option.isSome_iff_exists.mp hsq
          rw [hnk, hndq]
          show SkipList.keyOfLoop s target ndq level (p + nd.nextCount.getD level 0) f =
            .ok (keyAt seq (target + 1))
          have hcnt : p + nd.nextCount.getD level 0 = q := by rw [hnc]; omega
          rw [hcnt]
          exact ih q level ndq (by omega) hq3 hndq (by omega)
      | none =>
        rw [hq] at hnk hnc
        simp only [Option.elim] at hnk hnc
        have hlev1 : 1 ≤ level := by
          by_contra h0
          have h00 : level = 0 := by omega
          subst h00
          have hb := @nextAbove_base lv seq.length p
            (by omega) (hlv (p + 1) (by omega)).1
          rw [hb] at hq
          exact Option.noConfusion hq
        rw [if_pos (by rw [hnc]; omega)]
        exact ih p (level - 1) nd hp (by omega) hget (by omega)


theorem indexOfLoop_spec {V : Type} (s : SkipList V) (seq : List String) (lv : List Nat)
    (hwf : WF s seq lv) :
    ∀ fuel p c nd, p ≤ seq.length → s.nodesGet (keyAt seq p) = some nd →
      p < fuel →
      SkipList.indexOfLoop s (some nd) c fuel = .ok (((c + p : Nat) : Int) - 1) := by
  obtain ⟨hlen, hnlen, hlvlen, hndp, hnb, hlv, hkeys, hwfn⟩ := hwf
  intro fuel
  induction fuel with
  | zero =>
    intro p c nd _ _ hf
    omega
  | succ f ih =>
    intro p c nd hpn hget hf
    obtain ⟨hsome, hat⟩ := hwfn p (by omega)
    rw [hget] at hat
    simp only [Option.getD_some] at hat
    obtain ⟨hkey, hlevel, hfields⟩ := hat
    rw [indexOfLoop_eq]
    show (if truthy nd.key = false then Except.ok ((c : Int) - 1)
      else SkipList.indexOfLoop s (s.nodesGet (nd.prevKey.getD (nd.level - 1) none))
        (c + nd.prevCount.getD (nd.level - 1) 0) f) = .ok (((c + p : Nat) : Int) - 1)
    cases p with
    | zero =>
      have hk : nd.key = none := hkey
      simp [truthy, hk]
    | succ pp =>
      obtain ⟨x, hx⟩ : ∃ x, seq.get? pp = some x :=
        ⟨_, List.get?_eq_get (by omega)⟩
      have hxs : x ∈ seq := List.get?_mem hx
      have hxne : x ≠ "" := hnb x hxs
      have htr : truthy nd.key = true := by
        rw [hkey]
        show truthy (seq.get? pp) = true
        rw [hx]
        simp [truthy, hxne]
      rw [if_neg (by simp [htr])]
      have hlev1 : 1 ≤ nd.level := by
        rw [hlevel]
        exact (hlv (pp + 1) (by omega)).1
      obtain ⟨_, _, hprev⟩ := hfields (nd.level - 1) (by omega)
      obtain ⟨hpsome, hpk, hpc⟩ := hprev (by omega)
      cases hqq : prevAbove lv (nd.level - 1) (pp + 1) with
      | none =>
        rw [hqq] at hpsome
        exact absurd hpsome (by simp)
      | some q =>
        rw [hqq] at hpk hpc
        simp only [Option.elim] at hpk hpc
        obtain ⟨hql, hqlv⟩ := prevAbove_some hqq
        obtain ⟨hsq, _⟩ := hwfn q (by omega)
        obtain ⟨ndq, hndq⟩ := Option.isSome_iff_exists.mp hsq
        rw [hpk, hndq, hpc, ih q (c + (pp + 1 - q)) ndq (by omega) hndq (by omega)]
        have harith : c + (pp + 1 - q) + q = c + (pp + 1) := by omega
        rw [harith]


theorem keyOf_nat {V : Type} (s : SkipList V) (seq : List String) (lv : List Nat)
    (hwf : WF s seq lv) (i : Nat) (hi : i < seq.length) :
    s.keyOf (i : Int) = .ok (keyAt seq (i + 1)) := by
  have hwf' := hwf
  obtain ⟨hlen, hnlen, hlvlen, hndp, hnb, hlv, hkeys, hwfn⟩ := hwf'
  obtain ⟨hs0, hat0⟩ := hwfn 0 (by omega)
  obtain ⟨head, hhead⟩ := Option.isSome_iff_exists.mp hs0
  have hhead' : s.nodesGet none = some head := hhead
  rw [hhead] at hat0
  simp only [Option.getD_some] at hat0
  obtain ⟨hk0, hl0, _⟩ := hat0
  have hlv0 : 1 ≤ lv.getD 0 0 := (hlv 0 (by omega)).1
  unfold SkipList.keyOf
  have hidx : (if (i : Int) < 0 then (i : Int) + s.length else (i : Int)) = (i : Int) := by
    rw [if_neg (by omega)]
  simp only [hidx]
  rw [if_neg (by rw [hlen]; omega), hhead']
  show SkipList.keyOfLoop s (i : Int).toNat head (head.level - 1) 0
    ((i : Int).toNat + head.level + 2) = .ok (keyAt seq (i + 1))
  have htn : ((i : Int)).toNat = i := Int.toNat_natCast i
  rw [htn]
  exact keyOfLoop_spec s seq lv hwf i hi (i + head.level + 2) 0 (head.level - 1) head
    (by omega) (by rw [hl0]; omega) hhead' (by rw [hl0]; omega)

theorem indexOf_pos {V : Type} (s : SkipList V) (seq : List String) (lv : List Nat)
    (hwf : WF s seq lv) (p : Nat) (hp1 : 1 ≤ p) (hpn : p ≤ seq.length) :
    s.indexOf (keyAt seq p) = .ok ((p : Int) - 1) := by
  have hwf' := hwf
  obtain ⟨hlen, hnlen, hlvlen, hndp, hnb, hlv, hkeys, hwfn⟩ := hwf'
  obtain ⟨hsp, hatp⟩ := hwfn p (by omega)
  obtain ⟨nd, hnd⟩ := Option.isSome_iff_exists.mp hsp
  obtain ⟨x, hx⟩ : ∃ x, seq.get? (p - 1) = some x :=
    ⟨_, List.get?_eq_get (by omega)⟩
  have hkp : keyAt seq p = some x := by
    cases p with
    | zero => omega
    | succ pp =>
      show seq.get? pp = some x
      simpa using hx
  have hxne : x ≠ "" := hnb x (List.get?_mem hx)
  rw [hkp]
  unfold SkipList.indexOf
  show (if x = "" ∨ s.nodesHas (some x) = false then Except.ok (-1)
    else SkipList.indexOfLoop s (s.nodesGet (some x)) 0 (s.nodes.length + 2)) =
    .ok ((p : Int) - 1)
  have hgetx : s.nodesGet (some x) = some nd := by
    rw [← hkp]
    exact hnd
  have hhas : s.nodesHas (some x) = true := by
    rw [nodesHas_eq_isSome, hgetx]
    rfl
  rw [if_neg (by simp [hxne, hhas]), hgetx,
    indexOfLoop_spec s seq lv hwf (s.nodes.length + 2) p 0 nd hpn
      (by rw [← hkp] at hgetx; exact hgetx) (by rw [hnlen]; omega),
    Nat.zero_add]

/-- **C6.**  For a well-formed skip list representing key sequence `seq`:
`keyOf` returns `null` when the (negative-adjusted) index lies outside
`[0, length)`; `indexOf` returns `-1` for an absent key; for every index
`i < length`, `indexOf (keyOf i) = i`; and for every present key `k`,
`keyOf (indexOf k) = k`. -/
theorem C6_skiplist_index_key {V : Type} (s : SkipList V) (seq : List String)
    (lv : List Nat) (hwf : WF s seq lv) :
    (∀ index : Int,
      ((if index < 0 then index + s.length else index) < 0 ∨
       (s.length : Int) ≤ (if index < 0 then index + s.length else index)) →
      s.keyOf index = .ok none) ∧
    (∀ key, s.nodesHas key = false → s.indexOf key = .ok (-1)) ∧
    (∀ i : Nat, i < seq.length →
      (s.keyOf (i : Int)).bind (fun k => s.indexOf k) = .ok (i : Int)) ∧
    (∀ k, s.nodesHas (some k) = true →
      (s.indexOf (some k)).bind (fun j => s.keyOf j) = .ok (some k)) := by
  have hwf' := hwf
  obtain ⟨hlen, hnlen, hlvlen, hndp, hnb, hlv, hkeys, hwfn⟩ := hwf'
  refine ⟨?_, ?_, ?_, ?_⟩
  · intro index h
    unfold SkipList.keyOf
    show (if (if index < 0 then index + s.length else index) < 0 ∨
        (s.length : Int) ≤ (if index < 0 then index + s.length else index) then
        (Except.ok none : Except Err (Option String))
      else _) = .ok none
    rw [if_pos h]
  · intro key hkf
    cases key with
    | none => rfl
    | some k =>
      unfold SkipList.indexOf
      show (if k = "" ∨ s.nodesHas (some k) = false then Except.ok (-1)
        else SkipList.indexOfLoop s (s.nodesGet (some k)) 0 (s.nodes.length + 2)) =
        .ok (-1)
      rw [if_pos (Or.inr hkf)]
  · intro i hi
    rw [keyOf_nat s seq lv hwf i hi]
    show s.indexOf (keyAt seq (i + 1)) = .ok (i : Int)
    rw [indexOf_pos s seq lv hwf (i + 1) (by omega) (by omega)]
    have h2 : ((i + 1 : Nat) : Int) - 1 = (i : Int) := by omega
    rw [h2]
  · intro k hk
    unfold SkipList.nodesHas at hk
    obtain ⟨pr, hfind⟩ := Option.isSome_iff_exists.mp hk
    have hmem := List.mem_of_find?_eq_some hfind
    have hprk : pr.1 = some k := by simpa using List.find?_some hfind
    have hin := hkeys pr hmem
    rw [hprk] at hin
    simp only [List.mem_map, List.mem_range] at hin
    obtain ⟨p, hpP, hkp⟩ := hin
    have hp1 : 1 ≤ p := by
      cases p with
      | zero => exact absurd hkp (by simp [keyAt])
      | succ pp => omega
    have hidx := indexOf_pos s seq lv hwf p hp1 (by omega)
    rw [hkp] at hidx
    rw [hidx]
    show s.keyOf ((p : Int) - 1) = .ok (some k)
    have hcast : ((p : Int) - 1) = ((p - 1 : Nat) : Int) := by omega
    rw [hcast, keyOf_nat s seq lv hwf (p - 1) (by omega)]
    have hsucc : p - 1 + 1 = p := by omega
    rw [hsucc, hkp]

theorem C6_skiplist_witness :
    (ex6sl.keyOf (2 : Int)).bind (fun k => ex6sl.indexOf k) = .ok (2 : Int) :=
  (C6_skiplist_index_key ex6sl ex6seq ex6lv (by decide)).2.2.1 2 (by decide)


/-! ### C9: `insertIndex` beyond the end of the list -/

theorem find?_append_none {α : Type} (p : α → Bool) (l2 : List α) :
    ∀ l1 : List α, l1.find? p = none → (l1 ++ l2).find? p = l2.find? p
  | [], _ => rfl
  | x :: xs, h => by
    cases hpx : p x with
    | true =>
      rw [List.find?_cons_of_pos xs hpx] at h
      exact Option.noConfusion h
    | false =>
      rw [List.find?_cons_of_neg xs (by simp [hpx])] at h
      rw [List.cons_append, List.find?_cons_of_neg (xs ++ l2) (by simp [hpx])]
      exact find?_append_none p l2 xs h

theorem find?_append_some {α : Type} (p : α → Bool) (l2 : List α) (a : α) :
    ∀ l1 : List α, l1.find? p = some a → (l1 ++ l2).find? p = some a
  | [], h => Option.noConfusion h
  | x :: xs, h => by
    cases hpx : p x with
    | true =>
      rw [List.find?_cons_of_pos xs hpx] at h
      rw [List.cons_append, List.find?_cons_of_pos (xs ++ l2) hpx]
      exact h
    | false =>
      rw [List.find?_cons_of_neg xs (by simp [hpx])] at h
      rw [List.cons_append, List.find?_cons_of_neg (xs ++ l2) (by simp [hpx])]
      exact find?_append_some p l2 a xs h

theorem assocSet_fresh {K A : Type} [DecidableEq K] (k : K) (a : A) :
    ∀ l : List (K × A), l.find? (fun pr => pr.1 = k) = none →
      assocSet l k a = l ++ [(k, a)]
  | [], _ => rfl
  | (k0, a0) :: xs, h => by
    by_cases hk : k0 = k
    · rw [List.find?_cons_of_pos xs (by simp [hk])] at h
      exact Option.noConfusion h
    · rw [List.find?_cons_of_neg xs (by simp [hk])] at h
      show (if k0 = k then (k, a) :: xs else (k0, a0) :: assocSet xs k a) = _
      rw [if_neg hk, List.cons_append, assocSet_fresh k a xs h]

theorem getD_replicate {α : Type} (a d : α) :
    ∀ (m i : Nat), i < m → (List.replicate m a).getD i d = a
  | m + 1, 0, _ => rfl
  | m + 1, i + 1, h => getD_replicate a d m i (by omega)

theorem getD_replicate_self {α : Type} (a : α) :
    ∀ (m i : Nat), (List.replicate m a).getD i a = a
  | 0, 0 => rfl
  | 0, _ + 1 => rfl
  | _ + 1, 0 => rfl
  | m + 1, i + 1 => getD_replicate_self a m i

theorem nodesUpdate_cons {V : Type} (k0 : Option String) (n0 : SLNode V)
    (rest : List (Option String × SLNode V)) (k : Option String)
    (f : SLNode V → Except Err (SLNode V)) :
    SkipList.nodesUpdate ((k0, n0) :: rest) k f =
      (if k0 = k then (f n0) >>= (fun n1 => Except.ok ((k0, n1) :: rest))
       else (SkipList.nodesUpdate rest k f) >>=
         (fun rest1 => Except.ok ((k0, n0) :: rest1))) := rfl

theorem nodesUpdate_ok {V : Type} (k : Option String)
    (f : SLNode V → Except Err (SLNode V)) (pr : Option String × SLNode V)
    (v' : SLNode V) :
    ∀ nodes : List (Option String × SLNode V),
      nodes.find? (fun q => q.1 = k) = some pr → f pr.2 = .ok v' →
      ∃ nodes', SkipList.nodesUpdate nodes k f = .ok nodes' ∧
        nodes'.map Prod.fst = nodes.map Prod.fst ∧
        nodes'.find? (fun q => q.1 = k) = some (pr.1, v') ∧
        ∀ k', k' ≠ k →
          nodes'.find? (fun q => q.1 = k') = nodes.find? (fun q => q.1 = k')
  | [], hf, _ => Option.noConfusion hf
  | (k0, n0) :: rest, hf, hok => by
    by_cases hk : k0 = k
    · rw [List.find?_cons_of_pos rest (by simp [hk])] at hf
      have hpr : pr = (k0, n0) := by
        cases hf
        rfl
      subst hpr
      refine ⟨(k0, v') :: rest, ?_, by simp, ?_, ?_⟩
      · rw [nodesUpdate_cons, if_pos hk, hok, except_bind_ok]
      · rw [List.find?_cons_of_pos rest (by simp [hk])]
      · intro k' hk'
        have hne : ¬ (k0 = k') := by
          rw [hk]
          exact fun hc => hk' hc.symm
        rw [List.find?_cons_of_neg rest (by simp [hne]),
          List.find?_cons_of_neg rest (by simp [hne])]
    · rw [List.find?_cons_of_neg rest (by simp [hk])] at hf
      obtain ⟨rest', hup, hmap, hfk, hother⟩ := nodesUpdate_ok k f pr v' rest hf hok
      refine ⟨(k0, n0) :: rest', ?_, by simp [hmap], ?_, ?_⟩
      · rw [nodesUpdate_cons, if_neg hk, hup, except_bind_ok]
      · rw [List.find?_cons_of_neg rest' (by simp [hk])]
        exact hfk
      · intro k' hk'
        by_cases hkx : k0 = k'
        · rw [List.find?_cons_of_pos rest' (by simp [hkx]),
            List.find?_cons_of_pos rest (by simp [hkx])]
        · rw [List.find?_cons_of_neg rest' (by simp [hkx]),
            List.find?_cons_of_neg rest (by simp [hkx])]
          exact hother k' hk'


theorem predWalk_none {V : Type} (s : SkipList V) (ℓ c F : Nat) :
    SkipList.predWalk s ℓ none c (F + 1) = .ok (none, c) := rfl

theorem predsGo_succ_eq {V : Type} (s : SkipList V) (F ℓ : Nat) (K : Option String)
    (c m : Nat) :
    SkipList.predsGo s F ℓ K c (m + 1) = (do
      let kc ← SkipList.predWalk s ℓ K c F
      let rest ← SkipList.predsGo s F (ℓ + 1) kc.1 kc.2 m
      Except.ok (K :: rest.1, c :: rest.2)) := rfl

theorem predsGo_none {V : Type} (s : SkipList V) (F : Nat) (hF : 1 ≤ F) :
    ∀ m ℓ c, SkipList.predsGo s F ℓ none c m =
      .ok (List.replicate (m + 1) none, List.replicate (m + 1) c) := by
  intro m
  induction m with
  | zero =>
    intro ℓ c
    rfl
  | succ mm ih =>
    intro ℓ c
    obtain ⟨F1, rfl⟩ : ∃ F1, F = F1 + 1 := ⟨F - 1, by omega⟩
    rw [predsGo_succ_eq, predWalk_none, except_bind_ok]
    show (do
      let rest ← SkipList.predsGo s (F1 + 1) (ℓ + 1) none c mm
      Except.ok ((none : Option String) :: rest.1, c :: rest.2)) = _
    rw [ih (ℓ + 1) c, except_bind_ok]
    simp [List.replicate_succ]

theorem predecessors_none {V : Type} (s : SkipList V) (M : Nat) (hM : 1 ≤ M) :
    s.predecessors none M = .ok (List.replicate M none, List.replicate M 1) := by
  unfold SkipList.predecessors
  have h := predsGo_none s (s.nodes.length + 1) (by omega) (M - 1) 1 1
  rw [show M - 1 + 1 = M from by omega] at h
  exact h

theorem sucWalk_eq {V : Type} (s : SkipList V) (level : Nat) (K : Option String)
    (c F : Nat) :
    SkipList.sucWalk s level K c (F + 1) =
      (if truthy K = false then .ok (K, c)
       else match s.nodesGet K with
         | none => .error .typeError
         | some node =>
           if node.level > level then .ok (K, c)
           else if node.level < level then .error .rangeError
           else SkipList.sucWalk s level (node.nextKey.getD (level - 1) none)
             (c + node.nextCount.getD (level - 1) 0) F) := rfl

theorem sucWalk_none {V : Type} (s : SkipList V) (ℓ c F : Nat) :
    SkipList.sucWalk s ℓ none c (F + 1) = .ok (none, c) := rfl

theorem sucWalk_ok {V : Type} (s : SkipList V) (seq : List String) (lv : List Nat)
    (hwf : WF s seq lv) (ℓ : Nat) (hℓ1 : 1 ≤ ℓ) :
    ∀ F q c, 1 ≤ q → q ≤ seq.length → ℓ ≤ lv.getD q 0 →
      seq.length + 2 - q ≤ F →
      (∃ c', SkipList.sucWalk s ℓ (keyAt seq q) c F = .ok (none, c')) ∨
      (∃ q' c', SkipList.sucWalk s ℓ (keyAt seq q) c F = .ok (keyAt seq q', c') ∧
        q ≤ q' ∧ q' ≤ seq.length ∧ ℓ < lv.getD q' 0) := by
  obtain ⟨hlen, hnlen, hlvlen, hndp, hnb, hlv, hkeys, hwfn⟩ := hwf
  intro F
  induction F with
  | zero =>
    intro q c h1 h2 _ hF
    omega
  | succ F ih =>
    intro q c h1 h2 h3 hF
    obtain ⟨x, hx⟩ : ∃ x, seq.get? (q - 1) = some x :=
      ⟨_, List.get?_eq_get (by omega)⟩
    have hkq : keyAt seq q = some x := by
      cases q with
      | zero => omega
      | succ qq =>
        show seq.get? qq = some x
        simpa using hx
    have hxne : x ≠ "" := hnb x (List.get?_mem hx)
    obtain ⟨hsq, hatq⟩ := hwfn q (by omega)
    obtain ⟨nd, hnd⟩ := Option.isSome_iff_exists.mp hsq
    rw [hnd] at hatq
    simp only [Option.getD_some] at hatq
    obtain ⟨hkey, hlevel, hfields⟩ := hatq
    have hnd' : s.nodesGet (some x) = some nd := by
      rw [← hkq]
      exact hnd
    have hstep : SkipList.sucWalk s ℓ (keyAt seq q) c (F + 1) =
        (if nd.level > ℓ then .ok (keyAt seq q, c)
         else if nd.level < ℓ then .error .rangeError
         else SkipList.sucWalk s ℓ (nd.nextKey.getD (ℓ - 1) none)
           (c + nd.nextCount.getD (ℓ - 1) 0) F) := by
      rw [sucWalk_eq, hkq, if_neg (by simp [truthy, hxne]), hnd']
    by_cases hgt : ℓ < lv.getD q 0
    · right
      refine ⟨q, c, ?_, le_refl q, h2, hgt⟩
      rw [hstep, if_pos (by rw [hlevel]; exact hgt)]
    · have heq : lv.getD q 0 = ℓ := by omega
      obtain ⟨hnk, hnc, _⟩ := hfields (ℓ - 1) (by rw [hlevel]; omega)
      have hne : ¬ (nd.level > ℓ) := by
        rw [hlevel]
        omega
      have hne2 : ¬ (nd.level < ℓ) := by
        rw [hlevel]
        omega
      rw [hstep, if_neg hne, if_neg hne2]
      cases hq1 : nextAbove lv seq.length (ℓ - 1) q with
      | some q1 =>
        rw [hq1] at hnk
        simp only [Option.elim] at hnk
        obtain ⟨hq1a, hq1b, hq1c⟩ := nextAbove_some hq1
        rw [hnk]
        have hrec := ih q1 (c + nd.nextCount.getD (ℓ - 1) 0) (by omega) hq1b
          (by omega) (by omega)
        rcases hrec with ⟨c', hw⟩ | ⟨q', c', hw, hle, hqn, hlv'⟩
        · exact Or.inl ⟨c', hw⟩
        · exact Or.inr ⟨q', c', hw, by omega, hqn, hlv'⟩
      | none =>
        rw [hq1] at hnk
        simp only [Option.elim] at hnk
        rw [hnk]
        obtain ⟨F1, rfl⟩ : ∃ F1, F = F1 + 1 := ⟨F - 1, by omega⟩
        exact Or.inl ⟨_, sucWalk_none s ℓ _ F1⟩

/-- A successor-walk key is `null` or names a position above the given level. -/
def Qpred (seq : List String) (lv : List Nat) (ℓ : Nat) (K : Option String) : Prop :=
  K = none ∨ ∃ q, 1 ≤ q ∧ q ≤ seq.length ∧ K = keyAt seq q ∧ ℓ < lv.getD q 0

theorem sucsGo_succ_eq {V : Type} (s : SkipList V) (F ℓ : Nat) (K : Option String)
    (c m : Nat) :
    SkipList.sucsGo s F ℓ K c (m + 1) = (do
      let kc ← SkipList.sucWalk s ℓ K c F
      let rest ← SkipList.sucsGo s F (ℓ + 1) kc.1 kc.2 m
      Except.ok (K :: rest.1, c :: rest.2)) := rfl

theorem sucsGo_spec {V : Type} (s : SkipList V) (seq : List String) (lv : List Nat)
    (hwf : WF s seq lv) (F : Nat) (hF : seq.length + 1 ≤ F) :
    ∀ m ℓ0 K c, 1 ≤ ℓ0 → Qpred seq lv (ℓ0 - 1) K →
      ∃ ks cs, SkipList.sucsGo s F ℓ0 K c m = .ok (ks, cs) ∧
        ks.length = m + 1 ∧ ks.getD 0 none = K ∧
        ∀ j, j ≤ m → Qpred seq lv (ℓ0 - 1 + j) (ks.getD j none) := by
  intro m
  induction m with
  | zero =>
    intro ℓ0 K c _ hQ
    refine ⟨[K], [c], rfl, rfl, rfl, ?_⟩
    intro j hj
    have hj0 : j = 0 := by omega
    subst hj0
    simpa using hQ
  | succ mm ih =>
    intro ℓ0 K c hℓ0 hQ
    have hwalk : ∃ K1 c1, SkipList.sucWalk s ℓ0 K c F = .ok (K1, c1) ∧
        Qpred seq lv ℓ0 K1 := by
      rcases hQ with hKn | ⟨q, hq1, hq2, hKq, hqlv⟩
      · subst hKn
        obtain ⟨F1, rfl⟩ : ∃ F1, F = F1 + 1 := ⟨F - 1, by omega⟩
        exact ⟨none, c, sucWalk_none s ℓ0 c F1, Or.inl rfl⟩
      · subst hKq
        rcases sucWalk_ok s seq lv hwf ℓ0 hℓ0 F q c hq1 hq2 (by omega) (by omega) with
          ⟨c', hw⟩ | ⟨q', c', hw, hle, hqn, hlv'⟩
        · exact ⟨none, c', hw, Or.inl rfl⟩
        · exact ⟨keyAt seq q', c', hw, Or.inr ⟨q', by omega, hqn, rfl, hlv'⟩⟩
    obtain ⟨K1, c1, hw, hQ1⟩ := hwalk
    obtain ⟨ks', cs', hgo, hlen', hhd', hQ'⟩ := ih (ℓ0 + 1) K1 c1 (by omega)
      (by simpa using hQ1)
    refine ⟨K :: ks', c :: cs', ?_, by simp [hlen'], rfl, ?_⟩
    · rw [sucsGo_succ_eq, hw, except_bind_ok]
      show (do
        let rest ← SkipList.sucsGo s F (ℓ0 + 1) K1 c1 mm
        Except.ok (K :: rest.1, c :: rest.2)) = _
      rw [hgo, except_bind_ok]
    · intro j hj
      cases j with
      | zero => simpa using hQ
      | succ jj =>
        have := hQ' jj (by omega)
        have hsh : ℓ0 - 1 + (jj + 1) = ℓ0 + 1 - 1 + jj := by omega
        rw [hsh]
        simpa using this


theorem insertLevelLoop_cons {V : Type} (key : Option String) (newLevel maxLevel : Nat)
    (preKeys : List (Option String)) (preCounts : List Nat)
    (sucKeys : List (Option String)) (sucCounts : List Nat)
    (level : Nat) (levels : List Nat)
    (nodes : List (Option String × SLNode V)) (preLevel sucLevel : Nat) :
    SkipList.insertLevelLoop key newLevel maxLevel preKeys preCounts sucKeys sucCounts
      (level :: levels) (nodes, preLevel, sucLevel) = (do
        let updateLevel := min level newLevel
        let st1 ←
          if level = maxLevel ∨ preKeys.getD level none ≠ preKeys.getD preLevel none then do
            let nodes1 ← SkipList.nodesUpdate nodes (preKeys.getD preLevel none)
              (fun nd => nd.insertAfter key updateLevel preLevel (preCounts.getD preLevel 0))
            pure (nodes1, level, sucLevel)
          else pure (nodes, preLevel, sucLevel)
        let st2 ←
          if truthy (sucKeys.getD st1.2.2 none) ∧
              (level = maxLevel ∨ sucKeys.getD level none ≠ sucKeys.getD st1.2.2 none) then do
            let nodes2 ← SkipList.nodesUpdate st1.1 (sucKeys.getD st1.2.2 none)
              (fun nd => nd.insertBefore key updateLevel st1.2.2 (sucCounts.getD st1.2.2 0))
            pure (nodes2, st1.2.1, level)
          else pure st1
        SkipList.insertLevelLoop key newLevel maxLevel preKeys preCounts sucKeys sucCounts
          levels st2) := rfl

theorem SLNode_insertAfter_key_none {V : Type} (n : SLNode V) (nk : Option String)
    (uL fL d : Nat) (h : n.key = none) :
    ∃ v', n.insertAfter nk uL fL d = .ok v' ∧ v'.key = none := by
  unfold SLNode.insertAfter
  rw [if_neg (by simp [h])]
  exact ⟨_, rfl, h⟩

theorem SLNode_insertBefore_ok {V : Type} (n : SLNode V) (nk : Option String)
    (uL fL d : Nat) (h : uL ≤ n.level) :
    ∃ v', n.insertBefore nk uL fL d = .ok v' ∧ v'.level = n.level ∧ v'.key = n.key := by
  unfold SLNode.insertBefore
  rw [if_neg (by omega)]
  exact ⟨_, rfl, rfl, rfl⟩

theorem keyAt_inj {seq : List String} (hndp : seq.Nodup) (q1 q2 : Nat)
    (h1 : 1 ≤ q1) (h2 : q1 ≤ seq.length) (h3 : 1 ≤ q2) (h4 : q2 ≤ seq.length)
    (h : keyAt seq q1 = keyAt seq q2) : q1 = q2 := by
  obtain ⟨a1, rfl⟩ : ∃ a, q1 = a + 1 := ⟨q1 - 1, by omega⟩
  obtain ⟨a2, rfl⟩ : ∃ a, q2 = a + 1 := ⟨q2 - 1, by omega⟩
  have h' : seq.get? a1 = seq.get? a2 := h
  have := List.get?_inj (by omega) hndp h'
  omega


theorem except_pure_bind {ε α β : Type} (a : α) (f : α → Except ε β) :
    (pure a : Except ε α) >>= f = f a := rfl

theorem keyAt_pos {seq : List String} (q : Nat) (h1 : 1 ≤ q) (h2 : q ≤ seq.length) :
    ∃ x, keyAt seq q = some x ∧ x ∈ seq := by
  obtain ⟨x, hx⟩ : ∃ x, seq.get? (q - 1) = some x := ⟨_, List.get?_eq_get (by omega)⟩
  refine ⟨x, ?_, List.get?_mem hx⟩
  cases q with
  | zero => omega
  | succ qq =>
    show seq.get? qq = some x
    simpa using hx

theorem insertLoop_ok {V : Type} (s : SkipList V) (seq : List String) (lv : List Nat)
    (hwf : WF s seq lv) (k : String) (L M : Nat)
    (sks : List (Option String)) (scs : List Nat)
    (hQ : ∀ j, j ≤ M - 1 → Qpred seq lv j (sks.getD j none)) :
    ∀ (m ℓ : Nat) (nodes : List (Option String × SLNode V)) (pl sucLevel : Nat),
      ℓ + m = M + 1 → 1 ≤ ℓ →
      nodes.map Prod.fst = s.nodes.map Prod.fst →
      (∃ h0, nodes.find? (fun pr => pr.1 = none) = some (none, h0) ∧ h0.key = none) →
      (∀ q, 1 ≤ q → q ≤ seq.length →
        (nodes.find? (fun pr => pr.1 = keyAt seq q)).map (fun pr => pr.2.level) =
          some (lv.getD q 0)) →
      sucLevel < ℓ →
      (sks.getD sucLevel none = none ∨
        ∀ j, sucLevel ≤ j → j < ℓ → sks.getD j none = sks.getD sucLevel none) →
      ∃ nodes' pl' sl',
        SkipList.insertLevelLoop (some k) L M (List.replicate M none)
          (List.replicate M 1) sks scs (List.range' ℓ m) (nodes, pl, sucLevel) =
          .ok (nodes', pl', sl') ∧
        nodes'.map Prod.fst = s.nodes.map Prod.fst ∧
        ∃ h1, nodes'.find? (fun pr => pr.1 = none) = some (none, h1) ∧ h1.key = none := by
  have hwf' := hwf
  obtain ⟨hlen, hnlen, hlvlen, hndp, hnb, hlv, hkeys, hwfn⟩ := hwf'
  intro m
  induction m with
  | zero =>
    intro ℓ nodes pl sucLevel hm h1 hmap hnone hlev hsl hchain
    exact ⟨nodes, pl, sucLevel, rfl, hmap, hnone⟩
  | succ mm ih =>
    intro ℓ nodes pl sucLevel hm h1 hmap hnone hlev hsl hchain
    rw [List.range'_succ, insertLevelLoop_cons]
    simp only [getD_replicate_self]
    have hstage2 : ∀ nodesA : List (Option String × SLNode V),
        nodesA.map Prod.fst = s.nodes.map Prod.fst →
        (∃ h0, nodesA.find? (fun pr => pr.1 = none) = some (none, h0) ∧ h0.key = none) →
        (∀ q, 1 ≤ q → q ≤ seq.length →
          (nodesA.find? (fun pr => pr.1 = keyAt seq q)).map (fun pr => pr.2.level) =
            some (lv.getD q 0)) →
        truthy (sks.getD sucLevel none) = true →
        ∃ nodesB, SkipList.nodesUpdate nodesA (sks.getD sucLevel none)
            (fun nd => nd.insertBefore (some k) (min ℓ L) sucLevel
              (scs.getD sucLevel 0)) = .ok nodesB ∧
          nodesB.map Prod.fst = s.nodes.map Prod.fst ∧
          (∃ h0, nodesB.find? (fun pr => pr.1 = none) = some (none, h0) ∧
            h0.key = none) ∧
          (∀ q, 1 ≤ q → q ≤ seq.length →
            (nodesB.find? (fun pr => pr.1 = keyAt seq q)).map (fun pr => pr.2.level) =
              some (lv.getD q 0)) := by
      intro nodesA hmapA hnoneA hlevA htr
      have hQs := hQ sucLevel (by omega)
      rcases hQs with hK0n | ⟨q, hq1, hq2, hK0, hqlv⟩
      · rw [hK0n] at htr
        exact absurd htr (by simp [truthy])
      · have hlvq : ℓ ≤ lv.getD q 0 := by
          rcases hchain with hK0n | hch
          · rw [hK0n] at hK0
            obtain ⟨x, hkx, _⟩ := keyAt_pos q hq1 hq2
            rw [hkx] at hK0
            exact absurd hK0.symm (by exact Option.noConfusion)
          · have hchl := hch (ℓ - 1) (by omega) (by omega)
            have hQl := hQ (ℓ - 1) (by omega)
            rw [hchl, hK0] at hQl
            rcases hQl with hc | ⟨q2, hq21, hq22, hkq2, hlv2⟩
            · obtain ⟨x, hkx, _⟩ := keyAt_pos q hq1 hq2
              rw [hkx] at hc
              exact Option.noConfusion hc
            · have hqq : q = q2 := keyAt_inj hndp q q2 hq1 hq2 hq21 hq22 hkq2
              rw [← hqq] at hlv2
              omega
        cases hfindq : nodesA.find? (fun pr => pr.1 = keyAt seq q) with
        | none =>
          have := hlevA q hq1 hq2
          rw [hfindq] at this
          exact Option.noConfusion this
        | some pr =>
          have hprlev : pr.2.level = lv.getD q 0 := by
            have := hlevA q hq1 hq2
            rw [hfindq] at this
            simpa using this
          obtain ⟨v2, hv2, hv2lev, hv2key⟩ := SLNode_insertBefore_ok pr.2 (some k)
            (min ℓ L) sucLevel (scs.getD sucLevel 0)
            (by have := Nat.min_le_left ℓ L; omega)
          obtain ⟨nodes2, hup2, hmap2, hfk2, hoth2⟩ :=
            nodesUpdate_ok (keyAt seq q)
              (fun nd => nd.insertBefore (some k) (min ℓ L) sucLevel
                (scs.getD sucLevel 0)) pr v2 nodesA hfindq hv2
          refine ⟨nodes2, ?_, by rw [hmap2, hmapA], ?_, ?_⟩
          · rw [hK0]
            exact hup2
          · obtain ⟨h0, hfind0, hk0⟩ := hnoneA
            refine ⟨h0, ?_, hk0⟩
            rw [hoth2 none ?_]
            · exact hfind0
            · obtain ⟨x, hkx, _⟩ := keyAt_pos q hq1 hq2
              rw [hkx]
              exact fun hc => Option.noConfusion hc.symm
          · intro q3 hq31 hq32
            by_cases hq3 : keyAt seq q3 = keyAt seq q
            · have hq3e : q3 = q := keyAt_inj hndp q3 q hq31 hq32 hq1 hq2 hq3
              rw [hq3e, hfk2]
              show some v2.level = some (lv.getD q 0)
              rw [hv2lev, hprlev]
            · rw [hoth2 _ hq3]
              exact hlevA q3 hq31 hq32
    have hchain1 : ¬ (truthy (sks.getD sucLevel none) = true ∧
        (ℓ = M ∨ sks.getD ℓ none ≠ sks.getD sucLevel none)) →
        (sks.getD sucLevel none = none ∨
          ∀ j, sucLevel ≤ j → j < ℓ + 1 → sks.getD j none = sks.getD sucLevel none) := by
      intro hc2
      cases htr : truthy (sks.getD sucLevel none) with
      | false =>
        left
        have hQs := hQ sucLevel (by omega)
        rcases hQs with hK0n | ⟨q, hq1, hq2, hK0, hqlv⟩
        · exact hK0n
        · obtain ⟨x, hkx, hxm⟩ := keyAt_pos q hq1 hq2
          rw [hK0, hkx] at htr
          have hxne : x ≠ "" := hnb x hxm
          simp [truthy, hxne] at htr
      | true =>
        have hnor : ¬ (ℓ = M ∨ sks.getD ℓ none ≠ sks.getD sucLevel none) :=
          fun hor => hc2 ⟨htr, hor⟩
        push_neg at hnor
        rcases hchain with hK0n | hch
        · exact Or.inl hK0n
        · right
          intro j hj1 hj2
          by_cases hjl : j < ℓ
          · exact hch j hj1 hjl
          · have hje : j = ℓ := by omega
            subst hje
            exact hnor.2
    by_cases hM : ℓ = M
    · obtain ⟨h0, hfind0, hk0⟩ := hnone
      obtain ⟨v0, hv0, hv0k⟩ := SLNode_insertAfter_key_none h0 (some k) (min ℓ L) pl
        ((List.replicate M 1).getD pl 0) hk0
      obtain ⟨nodes1, hup1, hmap1, hfk1, hoth1⟩ :=
        nodesUpdate_ok none
          (fun nd => nd.insertAfter (some k) (min ℓ L) pl
            ((List.replicate M 1).getD pl 0)) (none, h0) v0 nodes hfind0 hv0
      have hmap1' : nodes1.map Prod.fst = s.nodes.map Prod.fst := by
        rw [hmap1, hmap]
      have hnone1' : ∃ hh, nodes1.find? (fun pr => pr.1 = none) = some (none, hh) ∧
          hh.key = none := ⟨v0, by simpa using hfk1, hv0k⟩
      have hlev1' : ∀ q, 1 ≤ q → q ≤ seq.length →
          (nodes1.find? (fun pr => pr.1 = keyAt seq q)).map (fun pr => pr.2.level) =
            some (lv.getD q 0) := by
        intro q hq1 hq2
        obtain ⟨x, hkx, _⟩ := keyAt_pos q hq1 hq2
        have hne : keyAt seq q ≠ none := by
          rw [hkx]
          exact Option.noConfusion
        rw [hoth1 _ hne]
        exact hlev q hq1 hq2
      rw [if_pos (Or.inl hM), hup1]
      simp only [except_bind_ok, except_pure_bind]
      by_cases hc2 : truthy (sks.getD sucLevel none) = true ∧
          (ℓ = M ∨ sks.getD ℓ none ≠ sks.getD sucLevel none)
      · obtain ⟨nodes2, hup2, hmap2', hnone2', hlev2'⟩ :=
          hstage2 nodes1 hmap1' hnone1' hlev1' hc2.1
        rw [if_pos hc2, hup2]
        simp only [except_bind_ok, except_pure_bind]
        exact ih (ℓ + 1) nodes2 ℓ ℓ (by omega) (by omega) hmap2' hnone2' hlev2'
          (by omega) (Or.inr (fun j hj1 hj2 => by
            have hje : j = ℓ := by omega
            subst hje
            rfl))
      · rw [if_neg hc2]
        exact ih (ℓ + 1) nodes1 ℓ sucLevel (by omega) (by omega) hmap1' hnone1'
          hlev1' (by omega) (hchain1 hc2)
    · rw [if_neg (by
          rintro (hc | hc)
          · exact hM hc
          · exact hc rfl)]
      simp only [except_pure_bind]
      by_cases hc2 : truthy (sks.getD sucLevel none) = true ∧
          (ℓ = M ∨ sks.getD ℓ none ≠ sks.getD sucLevel none)
      · obtain ⟨nodes2, hup2, hmap2', hnone2', hlev2'⟩ :=
          hstage2 nodes hmap hnone hlev hc2.1
        rw [if_pos hc2, hup2]
        simp only [except_bind_ok, except_pure_bind]
        exact ih (ℓ + 1) nodes2 pl ℓ (by omega) (by omega) hmap2' hnone2' hlev2'
          (by omega) (Or.inr (fun j hj1 hj2 => by
            have hje : j = ℓ := by omega
            subst hje
            rfl))
      · rw [if_neg hc2]
        exact ih (ℓ + 1) nodes pl sucLevel (by omega) (by omega) hmap hnone hlev
          (by omega) (hchain1 hc2)


/-- **C9.**  For a well-formed skip list and an index `i ≥ 1` strictly
beyond the list length, `keyOf (i - 1)` is `null`, so `insertIndex`
neither fails nor appends: it inserts the fresh key at the HEAD of the
list (the new key ends up at index 0). -/
theorem C9_insert_beyond_length {V : Type} (s : SkipList V) (seq : List String)
    (lv : List Nat) (hwf : WF s seq lv) (i : Int) (hi1 : 1 ≤ i)
    (hil : (s.length : Int) < i) (k : String) (hk : k ≠ "")
    (hfresh : s.nodesHas (some k) = false) (hr : 1 ≤ s.rand.headD 1)
    (v : Option V) :
    s.keyOf (i - 1) = .ok none ∧
    ∃ s', s.insertIndex i (some k) v = .ok s' ∧ s'.indexOf (some k) = .ok 0 := by
  have hwf' := hwf
  obtain ⟨hlen, hnlen, hlvlen, hndp, hnb, hlv, hkeys, hwfn⟩ := hwf'
  have hkeyOf : s.keyOf (i - 1) = .ok none := by
    unfold SkipList.keyOf
    have hidx : (if (i - 1 : Int) < 0 then (i - 1) + s.length else (i - 1)) = i - 1 := by
      rw [if_neg (by omega)]
    simp only [hidx]
    rw [if_pos (Or.inr (by omega))]
  refine ⟨hkeyOf, ?_⟩
  obtain ⟨hs0, hat0⟩ := hwfn 0 (by omega)
  obtain ⟨head, hhead⟩ := Option.isSome_iff_exists.mp hs0
  have hhead' : s.nodesGet none = some head := hhead
  rw [hhead] at hat0
  simp only [Option.getD_some] at hat0
  obtain ⟨hk0, hl0, hfields0⟩ := hat0
  have hlv01 : 1 ≤ lv.getD 0 0 := (hlv 0 (by omega)).1
  have hhas0 : s.nodesHas none = true := by
    rw [nodesHas_eq_isSome, hhead']
    rfl
  have hM1 : 1 ≤ max (s.rand.headD 1) head.level :=
    le_trans hr (Nat.le_max_left _ _)
  have hLM : s.rand.headD 1 ≤ max (s.rand.headD 1) head.level := Nat.le_max_left _ _
  -- the successor seed satisfies the walk invariant at level 0
  have hsuccS : ∃ S, (if truthy (head.nextKey.getD 0 none)
      then head.nextKey.getD 0 none else none) = S ∧ Qpred seq lv 0 S := by
    obtain ⟨hnk0, hnc0, _⟩ := hfields0 0 (by rw [hl0]; omega)
    by_cases hn0 : seq.length = 0
    · have hna : nextAbove lv seq.length 0 0 = none := by
        unfold nextAbove
        rw [hn0]
        rfl
      rw [hna] at hnk0
      simp only [Option.elim] at hnk0
      refine ⟨none, ?_, Or.inl rfl⟩
      rw [hnk0]
      rfl
    · have hna : nextAbove lv seq.length 0 0 = some 1 :=
        nextAbove_base (by omega) (hlv 1 (by omega)).1
      rw [hna] at hnk0
      simp only [Option.elim] at hnk0
      obtain ⟨x, hkx, hxm⟩ := @keyAt_pos seq 1 (by omega) (by omega)
      have hxne : x ≠ "" := hnb x hxm
      refine ⟨keyAt seq 1, ?_, Or.inr ⟨1, by omega, by omega, rfl, (hlv 1 (by omega)).1⟩⟩
      rw [hnk0, hkx]
      simp [truthy, hxne]
  obtain ⟨S, hSeq, hSQ⟩ := hsuccS
  -- successors walk
  obtain ⟨sks, scs, hsgo, hsklen, hskhd, hskQ⟩ :=
    sucsGo_spec s seq lv hwf (s.nodes.length + 1) (by rw [hnlen]; omega)
      (max (s.rand.headD 1) head.level - 1) 1 S 1 (by omega) (by simpa using hSQ)
  have hQ' : ∀ j, j ≤ max (s.rand.headD 1) head.level - 1 →
      Qpred seq lv j (sks.getD j none) := by
    intro j hj
    have := hskQ j hj
    simpa using this
  -- the head entry of the nodes map
  have hfindnone : s.nodes.find? (fun pr => pr.1 = none) = some (none, head) := by
    unfold SkipList.nodesGet at hhead'
    cases hfind : s.nodes.find? (fun pr => pr.1 = none) with
    | none =>
      rw [hfind] at hhead'
      exact Option.noConfusion hhead'
    | some pr =>
      rw [hfind] at hhead'
      have hp2 : pr.2 = head := by simpa using hhead'
      have hp1 : pr.1 = none := by simpa using List.find?_some hfind
      cases pr with
      | mk p1 p2 =>
        simp only at hp1 hp2
        rw [hp1, hp2]
  have hlevs : ∀ q, 1 ≤ q → q ≤ seq.length →
      (s.nodes.find? (fun pr => pr.1 = keyAt seq q)).map (fun pr => pr.2.level) =
        some (lv.getD q 0) := by
    intro q hq1 hq2
    obtain ⟨hsq, hatq⟩ := hwfn q (by omega)
    obtain ⟨ndq, hndq⟩ := Option.isSome_iff_exists.mp hsq
    rw [hndq] at hatq
    simp only [Option.getD_some] at hatq
    obtain ⟨_, hlevq, _⟩ := hatq
    unfold SkipList.nodesGet at hndq
    cases hfind : s.nodes.find? (fun pr => pr.1 = keyAt seq q) with
    | none =>
      rw [hfind] at hndq
      exact Option.noConfusion hndq
    | some pr =>
      rw [hfind] at hndq
      have hp2 : pr.2 = ndq := by simpa using hndq
      rw [Option.map_some']
      rw [hp2, hlevq]
  -- the level loop
  obtain ⟨nodesF, plF, slF, hloop, hmapF, h1F, hfindF0, hkeyF0⟩ :=
    insertLoop_ok s seq lv hwf k (s.rand.headD 1) (max (s.rand.headD 1) head.level)
      sks scs hQ' (max (s.rand.headD 1) head.level) 1 s.nodes 0 0 (by omega)
      (by omega) rfl ⟨head, hfindnone, hk0⟩ hlevs (by omega)
      (Or.inr (fun j hj1 hj2 => by
        have hje : j = 0 := by omega
        subst hje
        rfl))
  have hrange : (List.range (max (s.rand.headD 1) head.level)).map (· + 1) =
      List.range' 1 (max (s.rand.headD 1) head.level) := by
    rw [List.range'_eq_map_range]
    exact List.map_congr_left (fun x _ => Nat.add_comm x 1)
  -- reduce insertIndex to insertAfter at the head
  have hii : s.insertIndex i (some k) v = s.insertAfter none (some k) v := by
    unfold SkipList.insertIndex
    rw [if_neg (by omega), if_neg (by omega), hkeyOf, except_bind_ok]
  -- the new node record
  have hins : s.insertAfter none (some k) v =
      .ok ⟨s.length + 1, assocSet nodesF (some k)
        (⟨some k, v, s.rand.headD 1,
          (List.replicate (max (s.rand.headD 1) head.level) none).take (s.rand.headD 1),
          sks.take (s.rand.headD 1),
          (List.replicate (max (s.rand.headD 1) head.level) 1).take (s.rand.headD 1),
          scs.take (s.rand.headD 1)⟩ : SLNode V), s.rand.tail⟩ := by
    show (if k = "" then (.error .rangeError : Except Err (SkipList V))
      else if s.nodesHas none = false then .error .rangeError
      else if s.nodesHas (some k) then .error .rangeError
      else match s.nodesGet none, s.nodesGet none with
        | some head2, some predNode => do
          let pre ← s.predecessors none (max (s.rand.headD 1) head2.level)
          let suc ← s.successors
            (if truthy (predNode.nextKey.getD 0 none)
              then predNode.nextKey.getD 0 none else none)
            (max (s.rand.headD 1) head2.level)
          let st ← SkipList.insertLevelLoop (some k) (s.rand.headD 1)
            (max (s.rand.headD 1) head2.level) pre.1 pre.2 suc.1 suc.2
            ((List.range (max (s.rand.headD 1) head2.level)).map (· + 1))
            (s.nodes, 0, 0)
          Except.ok ⟨s.length + 1, assocSet st.1 (some k)
            (⟨some k, v, s.rand.headD 1, pre.1.take (s.rand.headD 1),
              suc.1.take (s.rand.headD 1), pre.2.take (s.rand.headD 1),
              suc.2.take (s.rand.headD 1)⟩ : SLNode V), s.rand.tail⟩
        | _, _ => .error .typeError) = _
    rw [if_neg hk, if_neg (by rw [hhas0]; simp), if_neg (by rw [hfresh]; simp),
      hhead']
    show (do
      let pre ← s.predecessors none (max (s.rand.headD 1) head.level)
      let suc ← s.successors
        (if truthy (head.nextKey.getD 0 none)
          then head.nextKey.getD 0 none else none)
        (max (s.rand.headD 1) head.level)
      let st ← SkipList.insertLevelLoop (some k) (s.rand.headD 1)
        (max (s.rand.headD 1) head.level) pre.1 pre.2 suc.1 suc.2
        ((List.range (max (s.rand.headD 1) head.level)).map (· + 1))
        (s.nodes, 0, 0)
      (Except.ok (⟨s.length + 1, assocSet st.1 (some k)
        (⟨some k, v, s.rand.headD 1, pre.1.take (s.rand.headD 1),
          suc.1.take (s.rand.headD 1), pre.2.take (s.rand.headD 1),
          suc.2.take (s.rand.headD 1)⟩ : SLNode V), s.rand.tail⟩ : SkipList V) :
        Except Err (SkipList V))) = _
    rw [hSeq, predecessors_none s (max (s.rand.headD 1) head.level) hM1]
    simp only [except_bind_ok]
    unfold SkipList.successors
    rw [hsgo]
    simp only [except_bind_ok]
    rw [hrange, hloop]
    simp only [except_bind_ok]
  -- facts about the result map
  have hfindsk : s.nodes.find? (fun pr => pr.1 = some k) = none := by
    unfold SkipList.nodesHas at hfresh
    cases h : s.nodes.find? (fun pr => pr.1 = some k) with
    | none => rfl
    | some pr =>
      rw [h] at hfresh
      exact Bool.noConfusion hfresh
  have hfindFk : nodesF.find? (fun pr => pr.1 = some k) = none := by
    rw [List.find?_eq_none]
    intro pr hpr
    simp only [decide_eq_true_eq]
    intro hc
    have hmem : pr.1 ∈ nodesF.map Prod.fst := List.mem_map_of_mem Prod.fst hpr
    rw [hmapF] at hmem
    obtain ⟨pr2, hpr2, hpr21⟩ := List.mem_map.mp hmem
    have := List.find?_eq_none.mp hfindsk pr2 hpr2
    simp only [decide_eq_true_eq] at this
    exact this (by rw [hpr21, hc])
  have hassoc : ∀ nn : SLNode V,
      assocSet nodesF (some k) nn = nodesF ++ [(some k, nn)] :=
    fun nn => assocSet_fresh (some k) nn nodesF hfindFk
  -- `indexOf` of the fresh key on the resulting list is 0
  have hidxF : ∀ nn : SLNode V, nn.key = some k → nn.level = s.rand.headD 1 →
      nn.prevKey = (List.replicate (max (s.rand.headD 1) head.level) none).take
        (s.rand.headD 1) →
      nn.prevCount = (List.replicate (max (s.rand.headD 1) head.level) 1).take
        (s.rand.headD 1) →
      SkipList.indexOf
        (⟨s.length + 1, assocSet nodesF (some k) nn, s.rand.tail⟩ : SkipList V)
        (some k) = .ok 0 := by
    intro nn hnnk hnnl hnnpk hnnpc
    have hget1 : SkipList.nodesGet
        (⟨s.length + 1, assocSet nodesF (some k) nn, s.rand.tail⟩ : SkipList V)
        (some k) = some nn := by
      unfold SkipList.nodesGet
      show ((assocSet nodesF (some k) nn).find? (fun pr => pr.1 = some k)).map (·.2) =
        some nn
      rw [hassoc nn, find?_append_none _ _ _ hfindFk,
        List.find?_cons_of_pos [] (by simp)]
      rfl
    have hget2 : SkipList.nodesGet
        (⟨s.length + 1, assocSet nodesF (some k) nn, s.rand.tail⟩ : SkipList V)
        none = some h1F := by
      unfold SkipList.nodesGet
      show ((assocSet nodesF (some k) nn).find? (fun pr => pr.1 = none)).map (·.2) =
        some h1F
      rw [hassoc nn, find?_append_some _ _ _ _ hfindF0]
      rfl
    have hhasF : SkipList.nodesHas
        (⟨s.length + 1, assocSet nodesF (some k) nn, s.rand.tail⟩ : SkipList V)
        (some k) = true := by
      rw [nodesHas_eq_isSome, hget1]
      rfl
    unfold SkipList.indexOf
    show (if k = "" ∨ SkipList.nodesHas
        (⟨s.length + 1, assocSet nodesF (some k) nn, s.rand.tail⟩ : SkipList V)
        (some k) = false then (Except.ok (-1) : Except Err Int)
      else SkipList.indexOfLoop
        (⟨s.length + 1, assocSet nodesF (some k) nn, s.rand.tail⟩ : SkipList V)
        (SkipList.nodesGet
          (⟨s.length + 1, assocSet nodesF (some k) nn, s.rand.tail⟩ : SkipList V)
          (some k)) 0 ((assocSet nodesF (some k) nn).length + 1 + 1)) = .ok 0
    rw [if_neg (by
      rintro (hc | hc)
      · exact hk hc
      · rw [hhasF] at hc
        exact Bool.noConfusion hc)]
    rw [hget1, indexOfLoop_eq]
    show (if truthy nn.key = false then Except.ok ((0 : Int) - 1)
      else SkipList.indexOfLoop
        (⟨s.length + 1, assocSet nodesF (some k) nn, s.rand.tail⟩ : SkipList V)
        (SkipList.nodesGet
          (⟨s.length + 1, assocSet nodesF (some k) nn, s.rand.tail⟩ : SkipList V)
          (nn.prevKey.getD (nn.level - 1) none))
        (0 + nn.prevCount.getD (nn.level - 1) 0)
        ((assocSet nodesF (some k) nn).length + 1)) = .ok 0
    rw [if_neg (by rw [hnnk]; simp [truthy, hk]),
      hnnl, hnnpk, hnnpc, List.take_replicate, List.take_replicate,
      Nat.min_eq_left hLM,
      getD_replicate none none _ _ (by omega),
      getD_replicate 1 0 _ _ (by omega), hget2, indexOfLoop_eq]
    show (if truthy h1F.key = false then Except.ok (((0 + 1 : Nat) : Int) - 1)
      else SkipList.indexOfLoop
        (⟨s.length + 1, assocSet nodesF (some k) nn, s.rand.tail⟩ : SkipList V)
        (SkipList.nodesGet
          (⟨s.length + 1, assocSet nodesF (some k) nn, s.rand.tail⟩ : SkipList V)
          (h1F.prevKey.getD (h1F.level - 1) none))
        (0 + 1 + h1F.prevCount.getD (h1F.level - 1) 0)
        (assocSet nodesF (some k) nn).length) = .ok 0
    rw [if_pos (by rw [hkeyF0]; rfl)]
    norm_num
  exact ⟨_, by rw [hii, hins], hidxF _ rfl rfl rfl rfl⟩


theorem C9_insert_beyond_length_witness :
    ex6sl.keyOf ((7 : Int) - 1) = .ok none ∧
    ∃ s', ex6sl.insertIndex 7 (some "z") (some (99 : Nat)) = .ok s' ∧
      s'.indexOf (some "z") = .ok 0 :=
  C9_insert_beyond_length ex6sl ex6seq ex6lv (by decide) 7 (by decide) (by decide)
    "z" (by decide) (by decide) (by decide) (some 99)

end Automerge
